import Mathlib

/-!
Verification of the MMR (Merkle Mountain Range) accumulator implemented in
`accumulator.c` / `accumulator.h`.

The C code is shallowly embedded as follows:

* Heap-allocated `MMRNode` records are kept in an arena (`nodes : List MMRNode`);
  a C node pointer becomes the node's index in this arena (indices are assigned
  in allocation order, so a freshly created node always gets index
  `nodes.length`).  The pointer fields `parent`, `left`, `right`, `next`
  become `Option Nat` (with `none` for `NULL`).
* The intrusive singly linked root list (`acc->head` plus the `next` field of
  root nodes) is embedded faithfully: the accumulator stores `head : Option Nat`
  and each node stores its `next` index; the derived function `rootChain`
  walks the chain exactly as the C traversal does.
* The tracker's bucket array `MMRItem **items` becomes
  `items : List (List MMRItem)`; a C bucket chain is the list at that bucket
  index, with insertion prepending at the chain head exactly as the C code does.
  `capacity` is `items.length`, `count` is kept explicitly.
* SHA-256 is an external collaborator of the core, so the whole development is
  parameterised by an arbitrary digest function `sha : List Nat → Digest`
  (a digest is modelled as a list of byte values).  `merkle_hash` concatenates
  the two 32-byte child digests and hashes the concatenation, which is embedded
  as `sha (left ++ right)`.
* `malloc`/`calloc` results are driven by an explicit allocation oracle
  (`List Bool`, one entry consumed per allocation; an exhausted oracle means
  every further allocation succeeds).  This makes the C failure paths of
  `mmr_add` expressible.  C mutates the accumulator in place, so every
  fallible operation returns the (possibly partially mutated) new state
  together with its success flag, mirroring what the caller of the C function
  observes.
* Machine integers (`size_t`, `uint64_t`) are modelled as `Nat`, with an
  explicit `% 2^64` where the C code relies on wrap-around (the FNV-1a hash).
  The load-factor test `count <= capacity * 0.75` is exact in floating point
  for the power-of-two capacities the code uses and is embedded as
  `4 * count ≤ 3 * capacity`.
-/

/-- A digest (the C `bytes32`), modelled as a list of byte values. -/
abbrev Digest := List Nat

/-- The external hash collaborator: `sha256` of a byte string. -/
abbrev HashFn := List Nat → Digest

/-- One vertex of the MMR forest: C struct `MMRNode`.  Pointers are arena
indices; `next` is the intrusive root-list link. -/
structure MMRNode where
  hash : Digest
  n_leaves : Nat
  parent : Option Nat
  left : Option Nat
  right : Option Nat
  next : Option Nat
deriving Repr, DecidableEq

/-- Default node used to totalise arena reads (C would dereference the
pointer; reads at invalid indices never happen in reachable states). -/
def dNode : MMRNode := ⟨[], 0, none, none, none, none⟩

/-- A Merkle inclusion proof: C struct `MMRWitness`.  `siblings = none`
models a `NULL` siblings pointer. -/
structure MMRWitness where
  hash : Digest
  siblings : Option (List Digest)
  n_siblings : Nat
  path : Nat
deriving Repr, DecidableEq

/-- A tracker hash-table entry: C struct `MMRItem` (the `next` chain pointer
is represented by the position in the bucket list). -/
structure MMRItem where
  node : Nat
  witness : Option MMRWitness
deriving Repr, DecidableEq

/-- Default item used to totalise bucket reads. -/
def dItem : MMRItem := ⟨0, none⟩

/-- The node tracker: C struct `MMRTracker`.  `capacity` is `items.length`. -/
structure MMRTracker where
  items : List (List MMRItem)
  count : Nat
deriving Repr, DecidableEq

/-- The accumulator: C struct `MMRAccumulator` (arena of all nodes ever
created, the root-list head, and the tracker). -/
structure MMRAccumulator where
  nodes : List MMRNode
  head : Option Nat
  tracker : MMRTracker
deriving Repr, DecidableEq

/-- Allocation oracle step: pop the next allocation result ( `malloc`
succeeding or failing); an exhausted oracle always succeeds. -/
def allocOk : List Bool → Bool × List Bool
  | [] => (true, [])
  | b :: o => (b, o)

/-- Read a node from the arena (dereference a node pointer). -/
def nodeAt (nodes : List MMRNode) (i : Nat) : MMRNode :=
  nodes.getD i dNode

/-- Read a bucket from the tracker (the chain at `items[b]`). -/
def bucketAt (t : MMRTracker) (b : Nat) : List MMRItem :=
  t.items.getD b []

/-- FNV-1a 64-bit hash of a 32-byte digest (C `mmr_tr_hash`, loop part):
byte `i` is xor-ed in and the state multiplied by the FNV prime, on `uint64`.
Reads 32 byte positions as the C code does (positions beyond the modelled
digest's length read as 0). -/
def fnv1a (d : Digest) : Nat :=
  (List.range 32).foldl
    (fun h i => ((h ^^^ d.getD i 0) * 1099511628211) % 18446744073709551616)
    14695981039346656037

/-- C `mmr_tr_hash`: bucket index of a digest for a given capacity. -/
def trIndex (d : Digest) (capacity : Nat) : Nat :=
  if capacity < 1 then 0 else fnv1a d % capacity

/-- Move one item to the front of its (re-computed) bucket: the body of the
rehash loops in C `mmr_tr_resize`. -/
def rehashOne (nodes : List MMRNode) (dst : List (List MMRItem)) (it : MMRItem) :
    List (List MMRItem) :=
  let key := trIndex (nodeAt nodes it.node).hash dst.length
  dst.set key (it :: dst.getD key [])

/-- Rehash all chains of `src` into `dst` (the nested loops of C
`mmr_tr_resize`): buckets in order, each chain walked from its head. -/
def rehashInto (nodes : List MMRNode) (dst : List (List MMRItem))
    (src : List (List MMRItem)) : List (List MMRItem) :=
  src.foldl (fun d bucket => bucket.foldl (fun d it => rehashOne nodes d it) d) dst

/-- C `mmr_tr_resize`: double the capacity and rehash every entry whenever
`count > capacity * 0.75`; returns the success flag and the (possibly
unchanged) tracker. -/
def mmr_tr_resize (nodes : List MMRNode) (t : MMRTracker) (o : List Bool) :
    Bool × MMRTracker × List Bool :=
  if t.items.length = 0 then (false, t, o)
  else if 4 * t.count ≤ 3 * t.items.length then (true, t, o)
  else
    let (ok, o') := allocOk o
    if ok then
      (true, ⟨rehashInto nodes (List.replicate (2 * t.items.length) []) t.items,
              t.count⟩, o')
    else (false, t, o')

/-- C `mmr_tr_get`: find the first chain entry in the digest's bucket whose
node has an equal hash; returns the bucket index and chain position. -/
def mmr_tr_get (nodes : List MMRNode) (t : MMRTracker) (h : Digest) :
    Option (Nat × Nat) :=
  let b := trIndex h t.items.length
  match (bucketAt t b).findIdx? (fun it => (nodeAt nodes it.node).hash = h) with
  | none => none
  | some pos => some (b, pos)

/-- C `mmr_tr_has_root`: does the digest's bucket contain a node with this
hash and no parent? -/
def mmr_tr_has_root (acc : MMRAccumulator) (h : Digest) : Bool :=
  (bucketAt acc.tracker (trIndex h acc.tracker.items.length)).any
    (fun it => (nodeAt acc.nodes it.node).parent = none ∧
               (nodeAt acc.nodes it.node).hash = h)

/-- C `mmr_tr_has_ptr`: is this exact node (by identity, i.e. arena index)
already present in the bucket computed from its hash? -/
def mmr_tr_has_ptr (t : MMRTracker) (h : Digest) (idx : Nat) : Bool :=
  (bucketAt t (trIndex h t.items.length)).any (fun it => it.node = idx)

/-- C `mmr_tr_insert` for a node with digest `h` that will live at arena
index `idx`: resize check first, then identity-idempotence check, then a new
item is prepended to the digest's chain and `count` incremented. -/
def mmr_tr_insert (nodes : List MMRNode) (t : MMRTracker) (h : Digest)
    (idx : Nat) (o : List Bool) : Bool × MMRTracker × List Bool :=
  if t.items.length = 0 then (false, t, o)
  else
    match mmr_tr_resize nodes t o with
    | (false, t', o') => (false, t', o')
    | (true, t', o') =>
      if mmr_tr_has_ptr t' h idx then (true, t', o')
      else
        let (ok, o'') := allocOk o'
        if ok then
          let b := trIndex h t'.items.length
          (true, MMRTracker.mk (t'.items.set b (⟨idx, none⟩ :: bucketAt t' b))
                   (t'.count + 1), o'')
        else (false, t', o'')

section WithSha

variable (sha : HashFn)

/-- C `merkle_hash`: hash of the 64-byte concatenation of the two child
digests. -/
def merkleHash (left right : Digest) : Digest :=
  sha (left ++ right)

/-- C `create_leaf`: allocate a node, hash the element, register the node.
On failure the node is freed (never enters the arena), but a resize performed
by the failing insert survives, exactly as in C. -/
def create_leaf (s : MMRAccumulator) (e : List Nat) (o : List Bool) :
    Option Nat × MMRAccumulator × List Bool :=
  if e = [] then (none, s, o)
  else
    let (ok, o') := allocOk o
    if ok then
      let h := sha e
      match mmr_tr_insert s.nodes s.tracker h s.nodes.length o' with
      | (false, t', o'') => (none, { s with tracker := t' }, o'')
      | (true, t', o'') =>
        (some s.nodes.length,
         { s with nodes := s.nodes ++ [⟨h, 1, none, none, none, none⟩],
                  tracker := t' }, o'')
    else (none, s, o')

/-- The arena after the linking phase of C `merge_nodes`: the freshly
registered parent node is appended (carrying the pair hash, the doubled
`n_leaves` and the two child links), then `left->parent`, `right->parent`
are pointed at it and the children's root-list `next` links cleared. -/
def mergedArena (nodes : List MMRNode) (l r : Nat) : List MMRNode :=
  let idx := nodes.length
  let h := merkleHash sha (nodeAt nodes l).hash (nodeAt nodes r).hash
  let n1 := nodes ++ [⟨h, 2 * (nodeAt nodes l).n_leaves, none, some l, some r, none⟩]
  let n2 := n1.set l { nodeAt n1 l with parent := some idx, next := none }
  n2.set r { nodeAt n2 r with parent := some idx, next := none }

/-- C `merge_nodes`: requires equal `n_leaves`; allocates the parent, hashes
the children's digests, registers the parent, then links parent and children
and clears the children's root-list `next` links. -/
def merge_nodes (s : MMRAccumulator) (l r : Nat) (o : List Bool) :
    Option Nat × MMRAccumulator × List Bool :=
  if (nodeAt s.nodes l).n_leaves ≠ (nodeAt s.nodes r).n_leaves then (none, s, o)
  else
    let (ok, o') := allocOk o
    if ok then
      let h := merkleHash sha (nodeAt s.nodes l).hash (nodeAt s.nodes r).hash
      match mmr_tr_insert s.nodes s.tracker h s.nodes.length o' with
      | (false, t', o'') => (none, { s with tracker := t' }, o'')
      | (true, t', o'') =>
        (some s.nodes.length,
         { s with nodes := mergedArena sha s.nodes l r, tracker := t' }, o'')
    else (none, s, o')

/-- Splice the finished node into the root list at the current front
(the two final assignments of C `mmr_add`):
`node->next = *cur; *cur = node`. -/
def spliceRoot (s : MMRAccumulator) (v : Nat) : MMRAccumulator :=
  { s with nodes := s.nodes.set v { nodeAt s.nodes v with next := s.head },
           head := some v }

/-- The carry-propagation loop of C `mmr_add`: while the root-list front has
the same `n_leaves` as the node in hand, pop it and merge (front as left
child, node in hand as right child).  `fuel` bounds the walk; in reachable
states the chain is shorter than the fuel supplied. -/
def addLoop (fuel : Nat) (s : MMRAccumulator) (v : Nat) (o : List Bool) :
    Bool × MMRAccumulator × List Bool :=
  match fuel with
  | 0 => (false, s, o)
  | fuel + 1 =>
    match s.head with
    | none => (true, spliceRoot s v, o)
    | some i =>
      if (nodeAt s.nodes i).n_leaves = (nodeAt s.nodes v).n_leaves then
        let nxt := (nodeAt s.nodes i).next
        match merge_nodes sha s i v o with
        | (none, s', o') => (false, s', o')
        | (some p, s', o') => addLoop fuel { s' with head := nxt } p o'
      else (true, spliceRoot s v, o)

/-- C `mmr_add`: create a leaf, run the carry-propagation merge loop, splice
the result into the root list. -/
def mmr_add (s : MMRAccumulator) (e : List Nat) (o : List Bool) :
    Bool × MMRAccumulator × List Bool :=
  if e = [] then (false, s, o)
  else
    match create_leaf sha s e o with
    | (none, s', o') => (false, s', o')
    | (some v, s', o') => addLoop sha (s'.nodes.length + 1) s' v o'

/-- C `mmr_init`: empty root list, tracker with 16 empty buckets. -/
def mmrInit : MMRAccumulator :=
  ⟨[], none, ⟨List.replicate 16 [], 0⟩⟩

/-- One step of a sequence of `mmr_add` calls: run the add on the current
state and conjoin its success flag. -/
def addStep (acc : Bool × MMRAccumulator) (st : List Nat × List Bool) :
    Bool × MMRAccumulator :=
  match mmr_add sha acc.2 st.1 st.2 with
  | (b, s', _) => (acc.1 && b, s')

/-- Run a sequence of `mmr_add` calls (element, allocation oracle) on a fresh
accumulator; the flag is true iff every add in the sequence succeeded. -/
def addSeq (steps : List (List Nat × List Bool)) : Bool × MMRAccumulator :=
  steps.foldl (addStep sha) (true, mmrInit)

/-- One fold step of C `mmr_verify`: combine the running digest with
`siblings[i]`, the path bit at position `i` choosing the operand order
(bit 1: running digest is the left operand). -/
def foldStep (sibs : List Digest) (path : Nat) (i : Nat) (h : Digest) : Digest :=
  let sib := sibs.getD i []
  if (path >>> i) &&& 1 = 1 then merkleHash sha h sib else merkleHash sha sib h

/-- The reconstruction loop of C `mmr_verify`, including its early exit:
after each fold step the running digest is checked against the current
roots, and the loop answers `true` as soon as a root matches; after the
last sibling the final digest is checked (C line 550). -/
def verifyLoop (acc : MMRAccumulator) (sibs : List Digest) (path : Nat) :
    Nat → Nat → Digest → Bool
  | _, 0, h => mmr_tr_has_root acc h
  | i, k + 1, h =>
    let h' := foldStep sha sibs path i h
    if mmr_tr_has_root acc h' then true else verifyLoop acc sibs path (i + 1) k h'

/-- C `mmr_verify`: structural checks (siblings pointer, height bound 63,
`path < 2^height`), then the fold loop. -/
def mmr_verify (acc : MMRAccumulator) (w : MMRWitness) : Bool :=
  if w.n_siblings > 0 ∧ w.siblings = none then false
  else if w.n_siblings > 63 then false
  else if w.path ≥ 2 ^ w.n_siblings then false
  else verifyLoop sha acc (w.siblings.getD []) w.path 0 w.n_siblings w.hash

/-- Pure fold of a witness (no early exit): `k` remaining fold steps starting
at level `i`.  `foldFrom 0 n` is the full fold that the specification says
`verify` must compare against the roots. -/
def foldFrom (sibs : List Digest) (path : Nat) : Nat → Nat → Digest → Digest
  | _, 0, h => h
  | i, k + 1, h => foldFrom sibs path (i + 1) k (foldStep sha sibs path i h)

/-- Specification-mandated acceptance ("Modelled from the spec", §4.4 of the
specification): a witness is valid iff the **final** folded digest, after
consuming all siblings, equals a current root digest.  Structural checks as
in the code.  Used to state the divergence of the C implementation. -/
def specVerify (acc : MMRAccumulator) (w : MMRWitness) : Bool :=
  if w.n_siblings > 0 ∧ w.siblings = none then false
  else if w.n_siblings > 63 then false
  else if w.path ≥ 2 ^ w.n_siblings then false
  else mmr_tr_has_root acc
    (foldFrom sha (w.siblings.getD []) w.path 0 w.n_siblings w.hash)

/-- The parent-chain walk of C `mmr_witness`: from node `i` upward, recording
at each level the sibling's digest and setting the path bit when the current
node is the left child.  Fails when 63 levels are exceeded or the tree
structure is inconsistent.  `fuel` bounds the walk (the C loop terminates
because parent pointers are acyclic; in the model parents always have larger
arena indices, so `nodes.length + 1` fuel suffices). -/
def witnessWalk (nodes : List MMRNode) :
    Nat → Nat → Nat → Nat → List Digest → Option (Nat × Nat × List Digest)
  | 0, _, _, _, _ => none
  | fuel + 1, i, level, path, sibs =>
    match (nodeAt nodes i).parent with
    | none => some (level, path, sibs)
    | some p =>
      if level ≥ 63 then none
      else if (nodeAt nodes p).left = some i then
        match (nodeAt nodes p).right with
        | none => none
        | some r =>
          witnessWalk nodes fuel p (level + 1) (path ||| (1 <<< level))
            (sibs ++ [(nodeAt nodes r).hash])
      else if (nodeAt nodes p).right = some i then
        match (nodeAt nodes p).left with
        | none => none
        | some l =>
          witnessWalk nodes fuel p (level + 1) path
            (sibs ++ [(nodeAt nodes l).hash])
      else none

/-- Overwrite the cached witness of the chain entry at bucket `b`,
position `pos` (the final `item->witness = *w` of C `mmr_witness`). -/
def setCache (t : MMRTracker) (b pos : Nat) (w : MMRWitness) : MMRTracker :=
  let old := (bucketAt t b).getD pos dItem
  let newBucket := (bucketAt t b).set pos { old with witness := some w }
  { t with items := t.items.set b newBucket }

/-- C `mmr_witness`: hash the element, look its node up in the tracker, walk
the parent chain collecting siblings and path bits, build the proof (a
height-0 proof carries no siblings array), and cache it on the tracker item.
Returns the proof together with the post-call accumulator (the C function
mutates only the witness cache). -/
def mmr_witness (s : MMRAccumulator) (e : List Nat) :
    Option (MMRWitness × MMRAccumulator) :=
  if e = [] then none
  else
    let h := sha e
    match mmr_tr_get s.nodes s.tracker h with
    | none => none
    | some (b, pos) =>
      let it := (bucketAt s.tracker b).getD pos dItem
      match witnessWalk s.nodes (s.nodes.length + 1) it.node 0 0 [] with
      | none => none
      | some (level, path, sibs) =>
        let w : MMRWitness :=
          ⟨h, if level = 0 then none else some sibs, level, path⟩
        some (w, { s with tracker := setCache s.tracker b pos w })

end WithSha

/-- Walk the intrusive root list (`acc->head` via `next` links), with fuel. -/
def rootChainAux (nodes : List MMRNode) : Nat → Option Nat → List Nat
  | 0, _ => []
  | _, none => []
  | fuel + 1, some i => i :: rootChainAux nodes fuel (nodeAt nodes i).next

/-- The root list of the accumulator, as the list of arena indices in
traversal order (front = most recently spliced root). -/
def rootChain (s : MMRAccumulator) : List Nat :=
  rootChainAux s.nodes s.nodes.length s.head

/-- The `n_leaves` of the current roots in root-list traversal order. -/
def rootSizes (s : MMRAccumulator) : List Nat :=
  (rootChain s).map (fun i => (nodeAt s.nodes i).n_leaves)

/-- Binary-counter carry: the effect of one `mmr_add` on the root-size list
(front = smallest).  Merging two equal-size trees doubles the carried size. -/
def carry (x : Nat) : List Nat → List Nat
  | [] => [x]
  | y :: ys => if y = x then carry (2 * x) ys else x :: y :: ys

/-- The powers of two of the binary representation of `n * 2^k` contributed
by `n`, in ascending order, starting at exponent `k`. -/
def bdA (k : Nat) : Nat → List Nat
  | 0 => []
  | n + 1 =>
    if (n + 1) % 2 = 1 then 2 ^ k :: bdA (k + 1) ((n + 1) / 2)
    else bdA (k + 1) ((n + 1) / 2)
  termination_by n => n
  decreasing_by all_goals { simp_wf; omega }

/-- The powers of two present in the binary representation of `n`, in
ascending order. -/
def binDecompAsc (n : Nat) : List Nat := bdA 0 n

/-- A concrete stand-in digest function used to evaluate the model on
explicit inputs (SHA-256 itself is an external collaborator). -/
def toySha : HashFn :=
  fun l => [l.foldl (fun a b => a * 1000003 + b + 1) 7]

/-- Tracker well-formedness: buckets are indexed consistently with `trIndex`
of the tracked node's digest, every chain entry references a live arena node,
and every arena node is tracked in the bucket of its digest. -/
structure TrInv (nodes : List MMRNode) (t : MMRTracker) : Prop where
  capPos : 0 < t.items.length
  bucketNode : ∀ b < t.items.length, ∀ it ∈ bucketAt t b,
    it.node < nodes.length ∧
    trIndex (nodeAt nodes it.node).hash t.items.length = b
  tracked : ∀ i < nodes.length,
    ∃ it ∈ bucketAt t (trIndex (nodeAt nodes i).hash t.items.length), it.node = i

/-- Structural well-formedness of the forest shared by the steady state and
the interior of the `mmr_add` merge loop: tracker consistency, parent links
that point upward (larger arena index) and are confirmed by the parent's
child links, children carrying the Merkle hash and the doubling `n_leaves`,
and root-list `next` links that point downward. -/
structure BaseInv (sha : HashFn) (s : MMRAccumulator) : Prop where
  tr : TrInv s.nodes s.tracker
  parentOK : ∀ i < s.nodes.length, ∀ p, (nodeAt s.nodes i).parent = some p →
    i < p ∧ p < s.nodes.length ∧
    ((nodeAt s.nodes p).left = some i ∨ (nodeAt s.nodes p).right = some i)
  childOK : ∀ i < s.nodes.length,
    ((nodeAt s.nodes i).left = none ∧ (nodeAt s.nodes i).right = none ∧
     (nodeAt s.nodes i).n_leaves = 1) ∨
    (∃ l r, (nodeAt s.nodes i).left = some l ∧ (nodeAt s.nodes i).right = some r ∧
      l < i ∧ r < i ∧
      (nodeAt s.nodes i).hash =
        merkleHash sha (nodeAt s.nodes l).hash (nodeAt s.nodes r).hash ∧
      (nodeAt s.nodes l).n_leaves = (nodeAt s.nodes r).n_leaves ∧
      (nodeAt s.nodes i).n_leaves = 2 * (nodeAt s.nodes l).n_leaves)
  nextOK : ∀ i < s.nodes.length, ∀ j, (nodeAt s.nodes i).next = some j → j < i
  headOK : ∀ h, s.head = some h → h < s.nodes.length

/-- The accumulator invariant after `N` successful adds: structural
well-formedness, the root list containing exactly the parentless nodes, and
the root sizes being the binary decomposition of `N`. -/
structure AccInv (sha : HashFn) (N : Nat) (s : MMRAccumulator) extends
    BaseInv sha s : Prop where
  chainRoot : ∀ i < s.nodes.length,
    ((nodeAt s.nodes i).parent = none ↔ i ∈ rootChain s)
  sizesEq : rootSizes s = binDecompAsc N

/-- The invariant of the carry-propagation loop inside `mmr_add`: the node
in hand (`v`) is a finished, parentless tree not yet spliced into the root
list, every chain index is smaller than `v`, and the pending `carry` of
`v`'s size into the remaining root sizes yields the binary decomposition of
the post-add leaf count `N`. -/
structure LoopInv (sha : HashFn) (N : Nat) (s : MMRAccumulator) (v : Nat)
    extends BaseInv sha s : Prop where
  vLt : v < s.nodes.length
  vParent : (nodeAt s.nodes v).parent = none
  vNext : (nodeAt s.nodes v).next = none
  chainLt : ∀ j ∈ rootChain s, j < v
  chainRootV : ∀ i < s.nodes.length,
    ((nodeAt s.nodes i).parent = none ↔ (i ∈ rootChain s ∨ i = v))
  carryEq : carry ((nodeAt s.nodes v).n_leaves) (rootSizes s) = binDecompAsc N

/-! ### Generic list access lemmas -/

theorem getD_append_lt {α : Type _} (l : List α) (x d : α) (i : Nat)
    (h : i < l.length) : (l ++ [x]).getD i d = l.getD i d := by
  simp [List.getD_eq_getElem?_getD, List.getElem?_append, h]

theorem getD_append_self {α : Type _} (l : List α) (x d : α) :
    (l ++ [x]).getD l.length d = x := by
  simp [List.getD_eq_getElem?_getD, List.getElem?_append_right (Nat.le_refl _)]

theorem getD_set_self {α : Type _} (l : List α) (x d : α) (i : Nat)
    (h : i < l.length) : (l.set i x).getD i d = x := by
  simp [List.getD_eq_getElem?_getD, List.getElem?_set_self h]

theorem getD_set_ne {α : Type _} (l : List α) (x d : α) (i j : Nat)
    (h : i ≠ j) : (l.set i x).getD j d = l.getD j d := by
  simp [List.getD_eq_getElem?_getD, List.getElem?_set_ne h]

theorem nodeAt_append_lt (nodes : List MMRNode) (x : MMRNode) (i : Nat)
    (h : i < nodes.length) : nodeAt (nodes ++ [x]) i = nodeAt nodes i :=
  getD_append_lt nodes x dNode i h

theorem nodeAt_append_self (nodes : List MMRNode) (x : MMRNode) :
    nodeAt (nodes ++ [x]) nodes.length = x :=
  getD_append_self nodes x dNode

theorem nodeAt_set_self (nodes : List MMRNode) (x : MMRNode) (i : Nat)
    (h : i < nodes.length) : nodeAt (nodes.set i x) i = x :=
  getD_set_self nodes x dNode i h

theorem nodeAt_set_ne (nodes : List MMRNode) (x : MMRNode) (i j : Nat)
    (h : i ≠ j) : nodeAt (nodes.set i x) j = nodeAt nodes j :=
  getD_set_ne nodes x dNode i j h

/-! ### Binary decomposition lemmas -/

theorem bdA_zero (k : Nat) : bdA k 0 = [] := by
  simp [bdA]

theorem bdA_succ (k n : Nat) :
    bdA k (n + 1) = if (n + 1) % 2 = 1 then 2 ^ k :: bdA (k + 1) ((n + 1) / 2)
                    else bdA (k + 1) ((n + 1) / 2) := by
  rw [bdA]

theorem bdA_ge (n : Nat) : ∀ k x, x ∈ bdA k n → 2 ^ k ≤ x := by
  induction n using Nat.strong_induction_on with
  | _ n ih =>
    intro k x hx
    match n with
    | 0 => simp [bdA_zero] at hx
    | m + 1 =>
      rw [bdA_succ] at hx
      by_cases hpar : (m + 1) % 2 = 1
      · rw [if_pos hpar] at hx
        rcases List.mem_cons.mp hx with h | h
        · exact h ▸ Nat.le_refl _
        · calc 2 ^ k ≤ 2 ^ (k + 1) := Nat.pow_le_pow_right (by omega) (by omega)
            _ ≤ x := ih ((m + 1) / 2) (by omega) (k + 1) x h
      · rw [if_neg hpar] at hx
        calc 2 ^ k ≤ 2 ^ (k + 1) := Nat.pow_le_pow_right (by omega) (by omega)
          _ ≤ x := ih ((m + 1) / 2) (by omega) (k + 1) x hx

theorem bdA_ne_nil (n : Nat) : ∀ k, 0 < n → bdA k n ≠ [] := by
  induction n using Nat.strong_induction_on with
  | _ n ih =>
    intro k hn
    match n with
    | m + 1 =>
      rw [bdA_succ]
      by_cases hpar : (m + 1) % 2 = 1
      · simp [hpar]
      · rw [if_neg hpar]
        exact ih ((m + 1) / 2) (by omega) (k + 1) (by omega)

theorem carry_bdA (n : Nat) : ∀ k, carry (2 ^ k) (bdA k n) = bdA k (n + 1) := by
  induction n using Nat.strong_induction_on with
  | _ n ih =>
    intro k
    match n with
    | 0 =>
      rw [bdA_zero, bdA_succ]
      norm_num [carry, bdA_zero]
    | m + 1 =>
      rw [bdA_succ]
      by_cases hpar : (m + 1) % 2 = 1
      · rw [if_pos hpar]
        have h1 : carry (2 ^ k) (2 ^ k :: bdA (k + 1) ((m + 1) / 2)) =
            carry (2 ^ (k + 1)) (bdA (k + 1) ((m + 1) / 2)) := by
          simp [carry, Nat.pow_succ, Nat.mul_comm]
        rw [h1, ih ((m + 1) / 2) (by omega) (k + 1)]
        rw [bdA_succ (k := k) (n := m + 1)]
        have h2 : (m + 1 + 1) % 2 = 0 := by omega
        rw [if_neg (by omega)]
        congr 1
        omega
      · rw [if_neg hpar]
        have hm : 0 < (m + 1) / 2 := by omega
        have hne := bdA_ne_nil ((m + 1) / 2) (k + 1) hm
        match hbd : bdA (k + 1) ((m + 1) / 2) with
        | [] => exact absurd hbd hne
        | y :: ys =>
          have hy : 2 ^ (k + 1) ≤ y := bdA_ge _ _ _ (hbd ▸ List.mem_cons_self y ys)
          have hyne : y ≠ 2 ^ k := by
            have : 2 ^ k < 2 ^ (k + 1) := by
              have := Nat.pow_lt_pow_right (a := 2) (by omega) (Nat.lt_succ_self k)
              omega
            omega
          rw [carry, if_neg hyne, bdA_succ (k := k) (n := m + 1)]
          rw [if_pos (by omega)]
          rw [← hbd]
          congr 2
          omega

theorem carry_binDecompAsc (n : Nat) :
    carry 1 (binDecompAsc n) = binDecompAsc (n + 1) := by
  have := carry_bdA n 0
  simpa [binDecompAsc] using this

theorem mem_bdA (n : Nat) : ∀ k x, x ∈ bdA k n ↔ ∃ j, n.testBit j ∧ x = 2 ^ (k + j) := by
  induction n using Nat.strong_induction_on with
  | _ n ih =>
    intro k x
    match n with
    | 0 => simp [bdA_zero]
    | m + 1 =>
      rw [bdA_succ]
      have hrec := ih ((m + 1) / 2) (by omega) (k + 1) x
      have hbit0 : (m + 1).testBit 0 = ((m + 1) % 2 = 1 : Bool) := by
        simp [Nat.testBit_zero]
      by_cases hpar : (m + 1) % 2 = 1
      · rw [if_pos hpar]
        simp only [List.mem_cons, hrec]
        constructor
        · rintro (rfl | ⟨j, hj, rfl⟩)
          · exact ⟨0, by simp [Nat.testBit_zero, hpar]⟩
          · refine ⟨j + 1, ?_, by ring_nf⟩
            rwa [Nat.testBit_succ]
        · rintro ⟨j, hj, rfl⟩
          match j with
          | 0 => left; rfl
          | j + 1 =>
            right
            rw [Nat.testBit_succ] at hj
            exact ⟨j, hj, by ring_nf⟩
      · rw [if_neg hpar]
        rw [hrec]
        constructor
        · rintro ⟨j, hj, rfl⟩
          refine ⟨j + 1, ?_, by ring_nf⟩
          rwa [Nat.testBit_succ]
        · rintro ⟨j, hj, rfl⟩
          match j with
          | 0 =>
            rw [Nat.testBit_zero] at hj
            simp at hj
            omega
          | j + 1 =>
            rw [Nat.testBit_succ] at hj
            exact ⟨j, hj, by ring_nf⟩

theorem mem_binDecompAsc (n x : Nat) :
    x ∈ binDecompAsc n ↔ ∃ j, n.testBit j ∧ x = 2 ^ j := by
  have := mem_bdA n 0 x
  simpa [binDecompAsc] using this

theorem bdA_pairwise (n : Nat) : ∀ k, List.Pairwise (· < ·) (bdA k n) := by
  induction n using Nat.strong_induction_on with
  | _ n ih =>
    intro k
    match n with
    | 0 => simp [bdA_zero]
    | m + 1 =>
      rw [bdA_succ]
      by_cases hpar : (m + 1) % 2 = 1
      · rw [if_pos hpar]
        refine List.pairwise_cons.mpr ⟨?_, ih ((m + 1) / 2) (by omega) (k + 1)⟩
        intro y hy
        have h1 : 2 ^ (k + 1) ≤ y := bdA_ge _ _ _ hy
        have h2 : 2 ^ k < 2 ^ (k + 1) :=
          Nat.pow_lt_pow_right (by omega) (Nat.lt_succ_self k)
        omega
      · rw [if_neg hpar]
        exact ih ((m + 1) / 2) (by omega) (k + 1)

theorem binDecompAsc_pairwise (n : Nat) :
    List.Pairwise (· < ·) (binDecompAsc n) :=
  bdA_pairwise n 0

theorem mem_binDecompAsc_le (n x : Nat) (hx : x ∈ binDecompAsc n) : x ≤ n := by
  rcases (mem_binDecompAsc n x).mp hx with ⟨j, hj, rfl⟩
  by_contra hlt
  rw [Nat.testBit_eq_false_of_lt (by omega)] at hj
  exact Bool.noConfusion hj

/-! ### Root chain lemmas -/

theorem rootChainAux_none (nodes : List MMRNode) (fuel : Nat) :
    rootChainAux nodes fuel none = [] := by
  cases fuel <;> rfl

theorem rootChainAux_mem_le (nodes : List MMRNode)
    (hdec : ∀ i j, (nodeAt nodes i).next = some j → j < i) :
    ∀ fuel i x, x ∈ rootChainAux nodes fuel (some i) → x ≤ i := by
  intro fuel
  induction fuel with
  | zero => intro i x hx; simp [rootChainAux] at hx
  | succ fuel ih =>
    intro i x hx
    rw [rootChainAux] at hx
    rcases List.mem_cons.mp hx with rfl | hx
    · exact Nat.le_refl _
    · match hnext : (nodeAt nodes i).next with
      | none => rw [hnext, rootChainAux_none] at hx; simp at hx
      | some j =>
        rw [hnext] at hx
        have := ih j x hx
        have := hdec i j hnext
        omega

theorem rootChainAux_fuel (nodes : List MMRNode)
    (hdec : ∀ i j, (nodeAt nodes i).next = some j → j < i) :
    ∀ i, ∀ fuel1 fuel2, i < fuel1 → i < fuel2 →
      rootChainAux nodes fuel1 (some i) = rootChainAux nodes fuel2 (some i) := by
  intro i
  induction i using Nat.strong_induction_on with
  | _ i ih =>
    intro fuel1 fuel2 h1 h2
    match fuel1, fuel2 with
    | f1 + 1, f2 + 1 =>
      rw [rootChainAux, rootChainAux]
      match hnext : (nodeAt nodes i).next with
      | none => rw [rootChainAux_none, rootChainAux_none]
      | some j =>
        have hj : j < i := hdec i j hnext
        rw [ih j hj f1 f2 (by omega) (by omega)]

theorem rootChainAux_pairwise (nodes : List MMRNode)
    (hdec : ∀ i j, (nodeAt nodes i).next = some j → j < i) :
    ∀ fuel cur, List.Pairwise (· > ·) (rootChainAux nodes fuel cur) := by
  intro fuel
  induction fuel with
  | zero => intro cur; simp [rootChainAux]
  | succ fuel ih =>
    intro cur
    match cur with
    | none => simp [rootChainAux]
    | some i =>
      rw [rootChainAux]
      refine List.pairwise_cons.mpr ⟨?_, ?_⟩
      · intro x hx
        match hnext : (nodeAt nodes i).next with
        | none => rw [hnext, rootChainAux_none] at hx; simp at hx
        | some j =>
          rw [hnext] at hx
          have := rootChainAux_mem_le nodes hdec fuel j x hx
          have := hdec i j hnext
          omega
      · exact ih _

theorem rootChainAux_congr (nodes1 nodes2 : List MMRNode) (c : Nat)
    (hdec : ∀ i j, (nodeAt nodes1 i).next = some j → j < i)
    (hag : ∀ j, j ≤ c → nodeAt nodes1 j = nodeAt nodes2 j) :
    ∀ fuel cur, (∀ i, cur = some i → i ≤ c) →
      rootChainAux nodes1 fuel cur = rootChainAux nodes2 fuel cur := by
  intro fuel
  induction fuel with
  | zero => intro cur _; simp [rootChainAux]
  | succ fuel ih =>
    intro cur hcur
    match cur with
    | none => simp [rootChainAux]
    | some i =>
      have hic : i ≤ c := hcur i rfl
      rw [rootChainAux, rootChainAux, ← hag i hic]
      match hnext : (nodeAt nodes1 i).next with
      | none => rw [rootChainAux_none, rootChainAux_none]
      | some j =>
        have hj : j < i := hdec i j hnext
        rw [ih (some j) (fun x hx => by cases hx; omega)]

/-! ### Tracker lemmas -/

theorem trIndex_lt (d : Digest) (cap : Nat) (hcap : 0 < cap) : trIndex d cap < cap := by
  unfold trIndex
  rw [if_neg (by omega)]
  exact Nat.mod_lt _ hcap

theorem bucketAt_mem_items (t : MMRTracker) (b : Nat) (hb : b < t.items.length) :
    bucketAt t b ∈ t.items := by
  unfold bucketAt
  rw [List.getD_eq_getElem?_getD, List.getElem?_eq_getElem hb]
  exact List.getElem_mem hb

theorem exists_bucket_idx (t : MMRTracker) (bk : List MMRItem) (h : bk ∈ t.items) :
    ∃ b, b < t.items.length ∧ bucketAt t b = bk := by
  rcases List.mem_iff_getElem.mp h with ⟨b, hb, hbk⟩
  refine ⟨b, hb, ?_⟩
  unfold bucketAt
  rw [List.getD_eq_getElem?_getD, List.getElem?_eq_getElem hb, hbk]
  rfl

theorem length_rehashOne (nodes : List MMRNode) (dst : List (List MMRItem))
    (it : MMRItem) : (rehashOne nodes dst it).length = dst.length := by
  unfold rehashOne
  exact List.length_set dst _ _

theorem mem_rehashOne (nodes : List MMRNode) (dst : List (List MMRItem))
    (it0 it : MMRItem) (hlen : 0 < dst.length) (b : Nat) :
    it ∈ (rehashOne nodes dst it0).getD b [] ↔
      (it ∈ dst.getD b [] ∨
       (it = it0 ∧ trIndex (nodeAt nodes it0.node).hash dst.length = b)) := by
  unfold rehashOne
  by_cases hb : trIndex (nodeAt nodes it0.node).hash dst.length = b
  · subst hb
    rw [getD_set_self _ _ _ _ (trIndex_lt _ _ hlen)]
    simp [List.mem_cons]
    tauto
  · rw [getD_set_ne _ _ _ _ _ hb]
    tauto

theorem rehashBucket_spec (nodes : List MMRNode) (bucket : List MMRItem) :
    ∀ dst : List (List MMRItem), 0 < dst.length →
      (bucket.foldl (fun d x => rehashOne nodes d x) dst).length = dst.length ∧
      ∀ b it, it ∈ (bucket.foldl (fun d x => rehashOne nodes d x) dst).getD b [] ↔
        (it ∈ dst.getD b [] ∨
         (it ∈ bucket ∧ trIndex (nodeAt nodes it.node).hash dst.length = b)) := by
  induction bucket with
  | nil => intro dst hlen; simp
  | cons x xs ih =>
    intro dst hlen
    rw [List.foldl_cons]
    have hlen1 : (rehashOne nodes dst x).length = dst.length := length_rehashOne _ _ _
    obtain ⟨ihl, ihm⟩ := ih (rehashOne nodes dst x) (by omega)
    refine ⟨by rw [ihl, hlen1], ?_⟩
    intro b it
    rw [ihm b it, hlen1, mem_rehashOne nodes dst x it hlen b]
    constructor
    · rintro ((h | ⟨rfl, hk⟩) | ⟨hmem, hk⟩)
      · exact Or.inl h
      · exact Or.inr ⟨List.mem_cons_self _ _, hk⟩
      · exact Or.inr ⟨List.mem_cons_of_mem _ hmem, hk⟩
    · rintro (h | ⟨hmem, hk⟩)
      · exact Or.inl (Or.inl h)
      · rcases List.mem_cons.mp hmem with rfl | hmem
        · exact Or.inl (Or.inr ⟨rfl, hk⟩)
        · exact Or.inr ⟨hmem, hk⟩

theorem rehashInto_spec (nodes : List MMRNode) (src : List (List MMRItem)) :
    ∀ dst : List (List MMRItem), 0 < dst.length →
      (rehashInto nodes dst src).length = dst.length ∧
      ∀ b it, it ∈ (rehashInto nodes dst src).getD b [] ↔
        (it ∈ dst.getD b [] ∨
         ((∃ bk ∈ src, it ∈ bk) ∧ trIndex (nodeAt nodes it.node).hash dst.length = b)) := by
  induction src with
  | nil =>
    intro dst hlen
    constructor
    · rfl
    · intro b it
      simp [rehashInto]
  | cons bk bks ih =>
    intro dst hlen
    unfold rehashInto at *
    rw [List.foldl_cons]
    obtain ⟨hbl, hbm⟩ := rehashBucket_spec nodes bk dst hlen
    obtain ⟨ihl, ihm⟩ := ih (bk.foldl (fun d x => rehashOne nodes d x) dst) (by omega)
    refine ⟨by rw [ihl, hbl], ?_⟩
    intro b it
    rw [ihm b it, hbm b it, hbl]
    constructor
    · rintro ((h | ⟨hmem, hk⟩) | ⟨⟨bk', hbk', hmem⟩, hk⟩)
      · exact Or.inl h
      · exact Or.inr ⟨⟨bk, List.mem_cons_self _ _, hmem⟩, hk⟩
      · exact Or.inr ⟨⟨bk', List.mem_cons_of_mem _ hbk', hmem⟩, hk⟩
    · rintro (h | ⟨⟨bk', hbk', hmem⟩, hk⟩)
      · exact Or.inl (Or.inl h)
      · rcases List.mem_cons.mp hbk' with rfl | hbk'
        · exact Or.inl (Or.inr ⟨hmem, hk⟩)
        · exact Or.inr ⟨⟨bk', hbk', hmem⟩, hk⟩

theorem resize_not_needed (nodes : List MMRNode) (t : MMRTracker) (o : List Bool)
    (hcap : t.items.length ≠ 0) (hload : 4 * t.count ≤ 3 * t.items.length) :
    mmr_tr_resize nodes t o = (true, t, o) := by
  unfold mmr_tr_resize
  rw [if_neg hcap, if_pos hload]

theorem resize_mem (nodes : List MMRNode) (t t' : MMRTracker) (o o' : List Bool)
    (hcap : t.items.length ≠ 0) (hload : ¬ 4 * t.count ≤ 3 * t.items.length)
    (hres : mmr_tr_resize nodes t o = (true, t', o')) :
    t'.items.length = 2 * t.items.length ∧ t'.count = t.count ∧
    ∀ b it, it ∈ bucketAt t' b ↔
      ((∃ bk ∈ t.items, it ∈ bk) ∧
       trIndex (nodeAt nodes it.node).hash (2 * t.items.length) = b) := by
  unfold mmr_tr_resize at hres
  rw [if_neg hcap, if_neg hload] at hres
  rcases hok : allocOk o with ⟨ok, o2⟩
  rw [hok] at hres
  cases ok with
  | false => simp at hres
  | true =>
    simp only [if_pos] at hres
    obtain ⟨ht', _⟩ : (⟨rehashInto nodes (List.replicate (2 * t.items.length) []) t.items,
        t.count⟩ : MMRTracker) = t' ∧ o2 = o' := by
      constructor
      · exact congrArg Prod.fst (congrArg Prod.snd hres)
      · exact congrArg Prod.snd (congrArg Prod.snd hres)
    subst ht'
    have hrep : (List.replicate (2 * t.items.length) ([] : List MMRItem)).length =
        2 * t.items.length := List.length_replicate _ _
    have hpos : 0 < (List.replicate (2 * t.items.length) ([] : List MMRItem)).length := by
      rw [hrep]; omega
    obtain ⟨hlen, hmem⟩ := rehashInto_spec nodes t.items _ hpos
    refine ⟨by simpa [hrep] using hlen, rfl, ?_⟩
    intro b it
    have := hmem b it
    simp only [bucketAt]
    rw [this, hrep]
    have hrepget : ∀ b, (List.replicate (2 * t.items.length) ([] : List MMRItem)).getD b [] = [] := by
      intro b
      rw [List.getD_eq_getElem?_getD, List.getElem?_replicate]
      by_cases hb : b < 2 * t.items.length <;> simp [hb]
    rw [hrepget]
    simp

theorem TrInv_resize (nodes : List MMRNode) (t t' : MMRTracker) (o o' : List Bool)
    (hinv : TrInv nodes t) (hres : mmr_tr_resize nodes t o = (true, t', o')) :
    TrInv nodes t' := by
  have hcap : t.items.length ≠ 0 := by have := hinv.capPos; omega
  by_cases hload : 4 * t.count ≤ 3 * t.items.length
  · rw [resize_not_needed nodes t o hcap hload] at hres
    obtain ⟨h1, -⟩ : t = t' ∧ o = o' := by
      exact ⟨congrArg Prod.fst (congrArg Prod.snd hres),
             congrArg Prod.snd (congrArg Prod.snd hres)⟩
    exact h1 ▸ hinv
  · obtain ⟨hlen, hcnt, hmem⟩ := resize_mem nodes t t' o o' hcap hload hres
    constructor
    · rw [hlen]; have := hinv.capPos; omega
    · intro b hb it hit
      rw [hmem b it] at hit
      obtain ⟨⟨bk, hbk, hitbk⟩, hidx⟩ := hit
      obtain ⟨b0, hb0, hbeq⟩ := exists_bucket_idx t bk hbk
      obtain ⟨hnode, -⟩ := hinv.bucketNode b0 hb0 it (hbeq ▸ hitbk)
      exact ⟨hnode, by rw [hlen]; exact hidx⟩
    · intro i hi
      obtain ⟨it, hit, hnode⟩ := hinv.tracked i hi
      refine ⟨it, ?_, hnode⟩
      rw [hmem _ it]
      have hb0 : trIndex (nodeAt nodes i).hash t.items.length < t.items.length :=
        trIndex_lt _ _ hinv.capPos
      refine ⟨⟨bucketAt t _, bucketAt_mem_items t _ hb0, hit⟩, ?_⟩
      rw [hlen, hnode]

theorem has_ptr_false (t : MMRTracker) (h : Digest) (idx : Nat) (n : Nat)
    (hfresh : ∀ b, b < t.items.length → ∀ it ∈ bucketAt t b, it.node < n)
    (hidx : n ≤ idx) (hcap : 0 < t.items.length) :
    mmr_tr_has_ptr t h idx = false := by
  unfold mmr_tr_has_ptr
  rw [List.any_eq_false]
  intro it hit
  have := hfresh _ (trIndex_lt h _ hcap) it hit
  simp only [decide_eq_true_eq]
  omega

theorem TrInv_insert (nodes : List MMRNode) (t t' : MMRTracker) (h : Digest)
    (o o' : List Bool) (node : MMRNode) (hhash : node.hash = h)
    (hinv : TrInv nodes t)
    (hins : mmr_tr_insert nodes t h nodes.length o = (true, t', o')) :
    TrInv (nodes ++ [node]) t' := by
  have hcap : t.items.length ≠ 0 := by have := hinv.capPos; omega
  unfold mmr_tr_insert at hins
  rw [if_neg hcap] at hins
  rcases hres : mmr_tr_resize nodes t o with ⟨okR, tR, oR⟩
  rw [hres] at hins
  cases okR with
  | false => simp at hins
  | true =>
    simp only at hins
    have hinvR : TrInv nodes tR := TrInv_resize nodes t tR o oR hinv hres
    have hptr : mmr_tr_has_ptr tR h nodes.length = false := by
      refine has_ptr_false tR h nodes.length nodes.length ?_ (Nat.le_refl _) hinvR.capPos
      intro b hb it hit
      exact (hinvR.bucketNode b hb it hit).1
    rw [hptr] at hins
    simp only [Bool.false_eq_true, if_false] at hins
    rcases hok : allocOk oR with ⟨ok, o2⟩
    rw [hok] at hins
    cases ok with
    | false => simp at hins
    | true =>
      simp only [if_pos] at hins
      obtain ⟨ht', -⟩ : (⟨tR.items.set (trIndex h tR.items.length)
          (⟨nodes.length, none⟩ :: bucketAt tR (trIndex h tR.items.length)),
          tR.count + 1⟩ : MMRTracker) = t' ∧ o2 = o' :=
        ⟨congrArg Prod.fst (congrArg Prod.snd hins),
         congrArg Prod.snd (congrArg Prod.snd hins)⟩
      subst ht'
      have hkey : trIndex h tR.items.length < tR.items.length :=
        trIndex_lt _ _ hinvR.capPos
      constructor
      · simp only [List.length_set]
        exact hinvR.capPos
      · intro b hb it hit
        simp only [List.length_set] at hb
        simp only [bucketAt] at hit ⊢
        by_cases hbk : trIndex h tR.items.length = b
        · subst hbk
          rw [getD_set_self _ _ _ _ hkey] at hit
          rcases List.mem_cons.mp hit with rfl | hit
          · constructor
            · simp
            · simp only [List.length_set]
              rw [nodeAt_append_self, hhash]
          · obtain ⟨h1, h2⟩ := hinvR.bucketNode _ hkey it hit
            refine ⟨by simp; omega, ?_⟩
            simp only [List.length_set]
            rw [nodeAt_append_lt _ _ _ h1]
            exact h2
        · rw [getD_set_ne _ _ _ _ _ hbk] at hit
          obtain ⟨h1, h2⟩ := hinvR.bucketNode b hb it hit
          refine ⟨by simp; omega, ?_⟩
          simp only [List.length_set]
          rw [nodeAt_append_lt _ _ _ h1]
          exact h2
      · intro i hi
        simp only [List.length_append, List.length_cons] at hi
        by_cases hil : i < nodes.length
        · obtain ⟨it, hit, hnode⟩ := hinvR.tracked i hil
          refine ⟨it, ?_, hnode⟩
          simp only [bucketAt, List.length_set]
          rw [nodeAt_append_lt _ _ _ hil]
          by_cases hbk : trIndex h tR.items.length =
              trIndex (nodeAt nodes i).hash tR.items.length
          · rw [← hbk, getD_set_self _ _ _ _ hkey]
            exact List.mem_cons_of_mem _ (by rw [hbk]; exact hit)
          · rw [getD_set_ne _ _ _ _ _ (fun hc => hbk hc)]
            exact hit
        · have hieq : i = nodes.length := by simp at hi; omega
          subst hieq
          refine ⟨⟨nodes.length, none⟩, ?_, rfl⟩
          simp only [bucketAt, List.length_set]
          rw [nodeAt_append_self, hhash, getD_set_self _ _ _ _ hkey]
          exact List.mem_cons_self _ _

theorem nodeAt_oob (nodes : List MMRNode) (i : Nat) (h : nodes.length ≤ i) :
    nodeAt nodes i = dNode :=
  List.getD_eq_default nodes dNode h

theorem TrInv_congr (nodes1 nodes2 : List MMRNode) (t : MMRTracker)
    (hinv : TrInv nodes1 t) (hlen : nodes2.length = nodes1.length)
    (hhash : ∀ i, i < nodes1.length →
      (nodeAt nodes2 i).hash = (nodeAt nodes1 i).hash) : TrInv nodes2 t := by
  constructor
  · exact hinv.capPos
  · intro b hb it hit
    obtain ⟨h1, h2⟩ := hinv.bucketNode b hb it hit
    rw [hlen, hhash it.node h1]
    exact ⟨h1, h2⟩
  · intro i hi
    rw [hlen] at hi
    obtain ⟨it, hit, hnode⟩ := hinv.tracked i hi
    rw [hhash i hi]
    exact ⟨it, hit, hnode⟩

theorem BaseInv.nextDec {sha : HashFn} {s : MMRAccumulator} (hinv : BaseInv sha s) :
    ∀ i j, (nodeAt s.nodes i).next = some j → j < i := by
  intro i j h
  by_cases hi : i < s.nodes.length
  · exact hinv.nextOK i hi j h
  · rw [nodeAt_oob _ _ (by omega)] at h
    exact Option.noConfusion h

theorem has_root_iff (s : MMRAccumulator) (hinv : TrInv s.nodes s.tracker)
    (h : Digest) :
    mmr_tr_has_root s h = true ↔
      ∃ i, i < s.nodes.length ∧ (nodeAt s.nodes i).parent = none ∧
        (nodeAt s.nodes i).hash = h := by
  unfold mmr_tr_has_root
  rw [List.any_eq_true]
  constructor
  · rintro ⟨it, hit, hp⟩
    simp only [decide_eq_true_eq] at hp
    obtain ⟨h1, -⟩ := hinv.bucketNode _ (trIndex_lt h _ hinv.capPos) it hit
    exact ⟨it.node, h1, hp⟩
  · rintro ⟨i, hi, hpar, hhash⟩
    obtain ⟨it, hit, hnode⟩ := hinv.tracked i hi
    refine ⟨it, ?_, ?_⟩
    · rw [← hhash]
      exact hit
    · simp only [decide_eq_true_eq]
      rw [hnode]
      exact ⟨hpar, hhash⟩

/-! ### findIdx? helper lemmas -/

theorem findIdx?_some_spec {α : Type _} (d : α) (p : α → Bool) :
    ∀ (l : List α) (s i : Nat), List.findIdx? p l s = some i →
      s ≤ i ∧ i - s < l.length ∧ p (l.getD (i - s) d) = true := by
  intro l
  induction l with
  | nil => intro s i h; rw [List.findIdx?_nil] at h; exact Option.noConfusion h
  | cons x xs ih =>
    intro s i h
    rw [List.findIdx?_cons] at h
    by_cases hp : p x = true
    · rw [if_pos hp] at h
      cases h
      refine ⟨Nat.le_refl _, by simp, ?_⟩
      simp [hp]
    · rw [if_neg hp] at h
      obtain ⟨h1, h2, h3⟩ := ih (s + 1) i h
      refine ⟨by omega, by simp; omega, ?_⟩
      have : i - s = (i - (s + 1)) + 1 := by omega
      rw [this]
      simpa using h3

theorem findIdx?_none_spec {α : Type _} (p : α → Bool) :
    ∀ (l : List α) (s : Nat), List.findIdx? p l s = none →
      ∀ x ∈ l, p x = false := by
  intro l
  induction l with
  | nil => intro s _ x hx; simp at hx
  | cons y ys ih =>
    intro s h x hx
    rw [List.findIdx?_cons] at h
    by_cases hp : p y = true
    · rw [if_pos hp] at h; exact Option.noConfusion h
    · rw [if_neg hp] at h
      rcases List.mem_cons.mp hx with rfl | hx
      · simpa using hp
      · exact ih (s + 1) h x hx

theorem findIdx?_congr {α : Type _} (p : α → Bool) :
    ∀ (l1 l2 : List α) (s : Nat), l1.map p = l2.map p →
      List.findIdx? p l1 s = List.findIdx? p l2 s := by
  intro l1
  induction l1 with
  | nil =>
    intro l2 s hmap
    cases l2 with
    | nil => rfl
    | cons y ys => simp at hmap
  | cons x xs ih =>
    intro l2 s hmap
    cases l2 with
    | nil => simp at hmap
    | cons y ys =>
      simp only [List.map_cons, List.cons.injEq] at hmap
      rw [List.findIdx?_cons, List.findIdx?_cons, hmap.1]
      by_cases hp : p y = true
      · rw [if_pos hp, if_pos hp]
      · rw [if_neg hp, if_neg hp]
        exact ih ys (s + 1) hmap.2

/-! ### Root chain congruence at the accumulator level -/

theorem rootChain_congr_acc (s1 s2 : MMRAccumulator) (c : Nat)
    (hdec1 : ∀ i j, (nodeAt s1.nodes i).next = some j → j < i)
    (hdec2 : ∀ i j, (nodeAt s2.nodes i).next = some j → j < i)
    (hag : ∀ j, j ≤ c → nodeAt s1.nodes j = nodeAt s2.nodes j)
    (hhead : s1.head = s2.head) (hheadle : ∀ h, s1.head = some h → h ≤ c)
    (hc1 : c < s1.nodes.length) (hc2 : c < s2.nodes.length) :
    rootChain s1 = rootChain s2 ∧ rootSizes s1 = rootSizes s2 := by
  have hchain : rootChain s1 = rootChain s2 := by
    unfold rootChain
    match hh : s1.head with
    | none => rw [← hhead, hh, rootChainAux_none, rootChainAux_none]
    | some h0 =>
      have hle : h0 ≤ c := hheadle h0 hh
      rw [← hhead, hh]
      calc rootChainAux s1.nodes s1.nodes.length (some h0)
          = rootChainAux s1.nodes (c + 1) (some h0) :=
            rootChainAux_fuel s1.nodes hdec1 h0 _ _ (by omega) (by omega)
        _ = rootChainAux s2.nodes (c + 1) (some h0) :=
            rootChainAux_congr s1.nodes s2.nodes c hdec1 hag _ _
              (fun i hi => by cases hi; omega)
        _ = rootChainAux s2.nodes s2.nodes.length (some h0) :=
            rootChainAux_fuel s2.nodes hdec2 h0 _ _ (by omega) (by omega)
  refine ⟨hchain, ?_⟩
  unfold rootSizes
  rw [hchain]
  apply List.map_congr_left
  intro i hi
  have hle : i ≤ c := by
    rw [← hchain] at hi
    unfold rootChain at hi
    match hh : s1.head with
    | none => rw [hh, rootChainAux_none] at hi; simp at hi
    | some h0 =>
      rw [hh] at hi
      have := rootChainAux_mem_le s1.nodes hdec1 _ _ _ hi
      have := hheadle h0 hh
      omega
  rw [hag i hle]

/-! ### Leaf creation -/

theorem create_leaf_some (sha : HashFn) (s : MMRAccumulator) (e : List Nat)
    (o : List Bool) (v : Nat) (s2 : MMRAccumulator) (o2 : List Bool)
    (h : create_leaf sha s e o = (some v, s2, o2)) :
    e ≠ [] ∧ v = s.nodes.length ∧
    ∃ t' o1, mmr_tr_insert s.nodes s.tracker (sha e) s.nodes.length o1 =
        (true, t', o2) ∧
      s2 = ⟨s.nodes ++ [⟨sha e, 1, none, none, none, none⟩], s.head, t'⟩ := by
  unfold create_leaf at h
  by_cases he : e = []
  · rw [if_pos he] at h
    exact absurd (congrArg Prod.fst h) (by simp)
  · rw [if_neg he] at h
    rcases hok : allocOk o with ⟨ok, o1⟩
    rw [hok] at h
    cases ok with
    | false => exact absurd (congrArg Prod.fst h) (by simp)
    | true =>
      simp only [if_pos] at h
      rcases hins : mmr_tr_insert s.nodes s.tracker (sha e) s.nodes.length o1 with
        ⟨bf, t', o''⟩
      rw [hins] at h
      cases bf with
      | false => exact absurd (congrArg Prod.fst h) (by simp)
      | true =>
        have hv : some s.nodes.length = some v := congrArg Prod.fst h
        have hs2 : ({ s with
            nodes := s.nodes ++ [⟨sha e, 1, none, none, none, none⟩],
            tracker := t' } : MMRAccumulator) = s2 :=
          congrArg Prod.fst (congrArg Prod.snd h)
        have ho2 : o'' = o2 := congrArg Prod.snd (congrArg Prod.snd h)
        refine ⟨he, by cases hv; rfl, t', o1, by rw [hins, ho2], ?_⟩
        rw [← hs2]

theorem rootChain_append_node (sha : HashFn) (s : MMRAccumulator)
    (node : MMRNode) (t' : MMRTracker) (hinv : BaseInv sha s)
    (hnext : node.next = none) :
    rootChain (⟨s.nodes ++ [node], s.head, t'⟩ : MMRAccumulator) = rootChain s ∧
    rootSizes (⟨s.nodes ++ [node], s.head, t'⟩ : MMRAccumulator) = rootSizes s := by
  have hdec1 := hinv.nextDec
  have hdec2 : ∀ i j, (nodeAt (s.nodes ++ [node]) i).next = some j → j < i := by
    intro i j hij
    by_cases hi : i < s.nodes.length
    · rw [nodeAt_append_lt _ _ _ hi] at hij
      exact hdec1 i j hij
    · by_cases hie : i = s.nodes.length
      · subst hie
        rw [nodeAt_append_self] at hij
        rw [hnext] at hij
        exact Option.noConfusion hij
      · rw [nodeAt_oob _ _ (by simp; omega)] at hij
        exact Option.noConfusion hij
  match hh : s.head with
  | none =>
    constructor
    · unfold rootChain
      simp only [hh]
      rw [rootChainAux_none, rootChainAux_none]
    · unfold rootSizes rootChain
      simp only [hh]
      rw [rootChainAux_none, rootChainAux_none]
      rfl
  | some h0 =>
    have hlt : h0 < s.nodes.length := hinv.headOK h0 hh
    have := rootChain_congr_acc s ⟨s.nodes ++ [node], some h0, t'⟩ h0
      hdec1 (by simpa using hdec2)
      (fun j hj => (nodeAt_append_lt _ _ _ (by omega)).symm)
      hh (fun h hhh => by rw [hh] at hhh; cases hhh; omega)
      hlt (by simp; omega)
    exact ⟨this.1.symm, this.2.symm⟩

theorem LoopInv_after_leaf (sha : HashFn) (N : Nat) (s : MMRAccumulator)
    (e : List Nat) (o : List Bool) (v : Nat) (s2 : MMRAccumulator) (o2 : List Bool)
    (hinv : AccInv sha N s)
    (hcl : create_leaf sha s e o = (some v, s2, o2)) :
    LoopInv sha (N + 1) s2 v ∧ rootChain s2 = rootChain s ∧
    v = s.nodes.length ∧ s2.head = s.head ∧
    s2.nodes = s.nodes ++ [⟨sha e, 1, none, none, none, none⟩] := by
  obtain ⟨he, hv, t', o1, hins, hs2⟩ := create_leaf_some sha s e o v s2 o2 hcl
  subst hv
  subst hs2
  set leaf : MMRNode := ⟨sha e, 1, none, none, none, none⟩ with hleaf
  have len := s.nodes.length
  obtain ⟨hch, hsz⟩ := rootChain_append_node sha s leaf t' hinv.toBaseInv rfl
  have hlen2 : (s.nodes ++ [leaf]).length = s.nodes.length + 1 := by simp
  have hbase : BaseInv sha (⟨s.nodes ++ [leaf], s.head, t'⟩ : MMRAccumulator) := by
    constructor
    · exact TrInv_insert s.nodes s.tracker t' (sha e) o1 o2 leaf rfl hinv.tr hins
    · intro i hi p hp
      simp only [hlen2] at hi
      by_cases hil : i < s.nodes.length
      · rw [nodeAt_append_lt _ _ _ hil] at hp
        obtain ⟨h1, h2, h3⟩ := hinv.parentOK i hil p hp
        rw [nodeAt_append_lt _ _ _ h2]
        exact ⟨h1, by simp; omega, h3⟩
      · have : i = s.nodes.length := by omega
        subst this
        rw [nodeAt_append_self] at hp
        exact Option.noConfusion hp
    · intro i hi
      simp only [hlen2] at hi
      by_cases hil : i < s.nodes.length
      · rw [nodeAt_append_lt _ _ _ hil]
        rcases hinv.childOK i hil with h | ⟨l, r, h1, h2, h3, h4, h5, h6, h7⟩
        · exact Or.inl h
        · refine Or.inr ⟨l, r, h1, h2, h3, h4, ?_, ?_, ?_⟩
          · rw [nodeAt_append_lt _ _ _ (by omega), nodeAt_append_lt _ _ _ (by omega)]
            exact h5
          · rw [nodeAt_append_lt _ _ _ (by omega), nodeAt_append_lt _ _ _ (by omega)]
            exact h6
          · rw [nodeAt_append_lt _ _ _ (by omega)]
            exact h7
      · have : i = s.nodes.length := by omega
        subst this
        rw [nodeAt_append_self]
        exact Or.inl ⟨rfl, rfl, rfl⟩
    · intro i hi j hj
      simp only [hlen2] at hi
      by_cases hil : i < s.nodes.length
      · rw [nodeAt_append_lt _ _ _ hil] at hj
        exact hinv.nextOK i hil j hj
      · have : i = s.nodes.length := by omega
        subst this
        rw [nodeAt_append_self] at hj
        exact Option.noConfusion hj
    · intro h hh
      simp only at hh
      have := hinv.headOK h hh
      simp only [hlen2]
      omega
  have hchainLt : ∀ j ∈ rootChain (⟨s.nodes ++ [leaf], s.head, t'⟩ : MMRAccumulator),
      j < s.nodes.length := by
    intro j hj
    rw [hch] at hj
    unfold rootChain at hj
    match hh : s.head with
    | none => rw [hh, rootChainAux_none] at hj; simp at hj
    | some h0 =>
      rw [hh] at hj
      have := rootChainAux_mem_le s.nodes hinv.nextDec _ _ _ hj
      have := hinv.headOK h0 hh
      omega
  refine ⟨⟨hbase, ?_, ?_, ?_, ?_, ?_, ?_⟩, hch, rfl, rfl, rfl⟩
  · simp only [hlen2]; omega
  · simp only
    rw [nodeAt_append_self]
  · simp only
    rw [nodeAt_append_self]
  · exact hchainLt
  · intro i hi
    simp only [hlen2] at hi
    by_cases hil : i < s.nodes.length
    · simp only
      rw [nodeAt_append_lt _ _ _ hil]
      rw [hch]
      have := hinv.chainRoot i hil
      constructor
      · intro hp
        exact Or.inl (this.mp hp)
      · rintro (hmem | rfl)
        · exact this.mpr hmem
        · omega
    · have : i = s.nodes.length := by omega
      subst this
      simp only
      rw [nodeAt_append_self]
      constructor
      · intro _; right; trivial
      · intro _; rfl
  · simp only
    rw [nodeAt_append_self, hsz, hinv.sizesEq]
    exact carry_binDecompAsc N

/-! ### Merged arena access lemmas -/

theorem mergedArena_length (sha : HashFn) (nodes : List MMRNode) (l r : Nat) :
    (mergedArena sha nodes l r).length = nodes.length + 1 := by
  unfold mergedArena
  simp

theorem nodeAt_merged_new (sha : HashFn) (nodes : List MMRNode) (l r : Nat)
    (hl : l < nodes.length) (hr : r < nodes.length) :
    nodeAt (mergedArena sha nodes l r) nodes.length =
      ⟨merkleHash sha (nodeAt nodes l).hash (nodeAt nodes r).hash,
       2 * (nodeAt nodes l).n_leaves, none, some l, some r, none⟩ := by
  unfold mergedArena
  simp only
  rw [nodeAt]
  rw [getD_set_ne _ _ _ _ _ (by omega), getD_set_ne _ _ _ _ _ (by omega)]
  exact getD_append_self _ _ _

theorem nodeAt_merged_other (sha : HashFn) (nodes : List MMRNode) (l r j : Nat)
    (hj : j < nodes.length) (hjl : j ≠ l) (hjr : j ≠ r) :
    nodeAt (mergedArena sha nodes l r) j = nodeAt nodes j := by
  unfold mergedArena
  simp only
  rw [nodeAt]
  rw [getD_set_ne _ _ _ _ _ (fun hc => hjr hc.symm),
      getD_set_ne _ _ _ _ _ (fun hc => hjl hc.symm)]
  exact getD_append_lt _ _ _ _ hj

theorem nodeAt_merged_right (sha : HashFn) (nodes : List MMRNode) (l r : Nat)
    (hr : r < nodes.length) :
    nodeAt (mergedArena sha nodes l r) r =
      { nodeAt nodes r with parent := some nodes.length, next := none } := by
  unfold mergedArena
  simp only
  rw [nodeAt]
  rw [getD_set_self _ _ _ _ (by simp; omega)]
  by_cases hlr : l = r
  · subst hlr
    rw [nodeAt, getD_set_self _ _ _ _ (by simp; omega), nodeAt,
        getD_append_lt _ _ _ _ hr]
    rfl
  · rw [nodeAt, getD_set_ne _ _ _ _ _ hlr, nodeAt, getD_append_lt _ _ _ _ hr]
    rfl

theorem nodeAt_merged_left (sha : HashFn) (nodes : List MMRNode) (l r : Nat)
    (hl : l < nodes.length) (hlr : l ≠ r) :
    nodeAt (mergedArena sha nodes l r) l =
      { nodeAt nodes l with parent := some nodes.length, next := none } := by
  unfold mergedArena
  simp only
  rw [nodeAt]
  rw [getD_set_ne _ _ _ _ _ (fun hc => hlr hc.symm),
      getD_set_self _ _ _ _ (by simp; omega)]
  rw [nodeAt, getD_append_lt _ _ _ _ hl]
  rfl

theorem merged_fields_eq (sha : HashFn) (nodes : List MMRNode) (l r j : Nat)
    (hl : l < nodes.length) (hr : r < nodes.length) (hj : j < nodes.length) :
    (nodeAt (mergedArena sha nodes l r) j).hash = (nodeAt nodes j).hash ∧
    (nodeAt (mergedArena sha nodes l r) j).n_leaves = (nodeAt nodes j).n_leaves ∧
    (nodeAt (mergedArena sha nodes l r) j).left = (nodeAt nodes j).left ∧
    (nodeAt (mergedArena sha nodes l r) j).right = (nodeAt nodes j).right := by
  by_cases hjr : j = r
  · subst hjr
    rw [nodeAt_merged_right sha nodes l _ hr]
    exact ⟨rfl, rfl, rfl, rfl⟩
  · by_cases hjl : j = l
    · subst hjl
      rw [nodeAt_merged_left sha nodes _ r hl hjr]
      exact ⟨rfl, rfl, rfl, rfl⟩
    · rw [nodeAt_merged_other sha nodes l r j hj hjl hjr]
      exact ⟨rfl, rfl, rfl, rfl⟩

theorem merge_nodes_some (sha : HashFn) (s : MMRAccumulator) (l r : Nat)
    (o : List Bool) (p : Nat) (s' : MMRAccumulator) (o' : List Bool)
    (h : merge_nodes sha s l r o = (some p, s', o')) :
    (nodeAt s.nodes l).n_leaves = (nodeAt s.nodes r).n_leaves ∧
    p = s.nodes.length ∧
    ∃ t' o1, mmr_tr_insert s.nodes s.tracker
        (merkleHash sha (nodeAt s.nodes l).hash (nodeAt s.nodes r).hash)
        s.nodes.length o1 = (true, t', o') ∧
      s' = ⟨mergedArena sha s.nodes l r, s.head, t'⟩ := by
  unfold merge_nodes at h
  by_cases hsz : (nodeAt s.nodes l).n_leaves ≠ (nodeAt s.nodes r).n_leaves
  · rw [if_pos hsz] at h
    exact absurd (congrArg Prod.fst h) (by simp)
  · rw [if_neg hsz] at h
    rcases hok : allocOk o with ⟨ok, o1⟩
    rw [hok] at h
    cases ok with
    | false => exact absurd (congrArg Prod.fst h) (by simp)
    | true =>
      simp only [if_pos] at h
      rcases hins : mmr_tr_insert s.nodes s.tracker
          (merkleHash sha (nodeAt s.nodes l).hash (nodeAt s.nodes r).hash)
          s.nodes.length o1 with ⟨bf, t', o''⟩
      rw [hins] at h
      cases bf with
      | false => exact absurd (congrArg Prod.fst h) (by simp)
      | true =>
        have hp : some s.nodes.length = some p := congrArg Prod.fst h
        have hs' : ({ s with nodes := mergedArena sha s.nodes l r, tracker := t' } : MMRAccumulator) = s' :=
          congrArg Prod.fst (congrArg Prod.snd h)
        have ho' : o'' = o' := congrArg Prod.snd (congrArg Prod.snd h)
        refine ⟨by omega, by cases hp; rfl, t', o1, by rw [hins, ho'], ?_⟩
        rw [← hs']

theorem rootChain_cons (s : MMRAccumulator) (i : Nat) (hh : s.head = some i)
    (hlen : i < s.nodes.length) :
    rootChain s =
      i :: rootChainAux s.nodes (s.nodes.length - 1) (nodeAt s.nodes i).next := by
  unfold rootChain
  rw [hh]
  obtain ⟨m, hm⟩ : ∃ m, s.nodes.length = m + 1 := ⟨s.nodes.length - 1, by omega⟩
  rw [hm]
  rw [rootChainAux]
  have hm1 : m + 1 - 1 = m := by omega
  rw [hm1]

theorem LoopInv_merge_step (sha : HashFn) (M : Nat) (s : MMRAccumulator)
    (v i : Nat) (o' : List Bool) (t' : MMRTracker) (o1 : List Bool)
    (hinv : LoopInv sha M s v) (hhead : s.head = some i)
    (hsz : (nodeAt s.nodes i).n_leaves = (nodeAt s.nodes v).n_leaves)
    (hins : mmr_tr_insert s.nodes s.tracker
      (merkleHash sha (nodeAt s.nodes i).hash (nodeAt s.nodes v).hash)
      s.nodes.length o1 = (true, t', o')) :
    LoopInv sha M
      (⟨mergedArena sha s.nodes i v, (nodeAt s.nodes i).next, t'⟩ :
        MMRAccumulator) s.nodes.length ∧
    rootChain (⟨mergedArena sha s.nodes i v, (nodeAt s.nodes i).next, t'⟩ :
        MMRAccumulator) = List.tail (rootChain s) := by
  have hlen_i : i < s.nodes.length := hinv.headOK i hhead
  have hvlen : v < s.nodes.length := hinv.vLt
  have hchtail := rootChain_cons s i hhead hlen_i
  have hichain : i ∈ rootChain s := by rw [hchtail]; exact List.mem_cons_self _ _
  have hiv : i < v := hinv.chainLt i hichain
  have hivne : i ≠ v := by omega
  have hiparent : (nodeAt s.nodes i).parent = none :=
    (hinv.chainRootV i hlen_i).mpr (Or.inl hichain)
  have hdec1 := hinv.nextDec
  set nodes3 := mergedArena sha s.nodes i v with hnodes3
  have hlen3 : nodes3.length = s.nodes.length + 1 := mergedArena_length sha _ i v
  have hnew := nodeAt_merged_new sha s.nodes i v hlen_i hvlen
  have hleft := nodeAt_merged_left sha s.nodes i v hlen_i hivne
  have hright := nodeAt_merged_right sha s.nodes i v hvlen
  have hfields := fun j hj => merged_fields_eq sha s.nodes i v j hlen_i hvlen hj
  have hdec3 : ∀ a b, (nodeAt nodes3 a).next = some b → b < a := by
    intro a b hab
    by_cases hai : a = i
    · subst hai; rw [hleft] at hab; exact Option.noConfusion hab
    · by_cases hav : a = v
      · subst hav; rw [hright] at hab; exact Option.noConfusion hab
      · by_cases halen : a < s.nodes.length
        · rw [nodeAt_merged_other sha s.nodes i v a halen hai hav] at hab
          exact hdec1 a b hab
        · by_cases haeq : a = s.nodes.length
          · subst haeq; rw [hnew] at hab; exact Option.noConfusion hab
          · rw [nodeAt_oob _ _ (by omega)] at hab
            exact Option.noConfusion hab
  -- tail of the old chain and its members
  set tl := rootChainAux s.nodes (s.nodes.length - 1) (nodeAt s.nodes i).next with htl
  have htlmem : ∀ j ∈ tl, j < i := by
    intro j hj
    rw [htl] at hj
    match hnxt : (nodeAt s.nodes i).next with
    | none => rw [hnxt, rootChainAux_none] at hj; simp at hj
    | some h0 =>
      rw [hnxt] at hj
      have := rootChainAux_mem_le s.nodes hdec1 _ _ _ hj
      have := hdec1 i h0 hnxt
      omega
  -- the new chain is the old tail
  have hchain2 : rootChain (⟨nodes3, (nodeAt s.nodes i).next, t'⟩ :
      MMRAccumulator) = tl := by
    show rootChainAux nodes3 nodes3.length (nodeAt s.nodes i).next = tl
    match hnxt : (nodeAt s.nodes i).next with
    | none => rw [rootChainAux_none, htl, hnxt, rootChainAux_none]
    | some h0 =>
      have hh0 : h0 < i := hdec1 i h0 hnxt
      rw [htl, hnxt]
      calc rootChainAux nodes3 nodes3.length (some h0)
          = rootChainAux nodes3 (h0 + 1) (some h0) :=
            rootChainAux_fuel nodes3 hdec3 h0 _ _ (by omega) (by omega)
        _ = rootChainAux s.nodes (h0 + 1) (some h0) := by
            refine rootChainAux_congr nodes3 s.nodes h0 hdec3 ?_ _ _
              (fun a ha => by cases ha; omega)
            intro j hj
            exact nodeAt_merged_other sha s.nodes i v j (by omega) (by omega)
              (by omega)
        _ = rootChainAux s.nodes (s.nodes.length - 1) (some h0) :=
            rootChainAux_fuel s.nodes hdec1 h0 _ _ (by omega) (by omega)
  have hsizes2 : rootSizes (⟨nodes3, (nodeAt s.nodes i).next, t'⟩ :
      MMRAccumulator) = tl.map (fun j => (nodeAt s.nodes j).n_leaves) := by
    unfold rootSizes
    rw [hchain2]
    simp only
    apply List.map_congr_left
    intro j hj
    have hji : j < i := htlmem j hj
    exact ((hfields j (by omega)).2.1)
  have hsizes_old : rootSizes s =
      (nodeAt s.nodes i).n_leaves :: tl.map (fun j => (nodeAt s.nodes j).n_leaves) := by
    unfold rootSizes
    rw [hchtail]
    simp
  -- tracker invariant carried to the merged arena
  have hTrApp : TrInv (s.nodes ++
      [⟨merkleHash sha (nodeAt s.nodes i).hash (nodeAt s.nodes v).hash,
        2 * (nodeAt s.nodes i).n_leaves, none, some i, some v, none⟩]) t' :=
    TrInv_insert s.nodes s.tracker t' _ o1 o' _ rfl hinv.tr hins
  have hTr3 : TrInv nodes3 t' := by
    refine TrInv_congr _ nodes3 t' hTrApp (by simp [hlen3]) ?_
    intro j hj
    simp only [List.length_append, List.length_cons, List.length_nil] at hj
    by_cases hjl : j < s.nodes.length
    · rw [nodeAt_append_lt _ _ _ hjl]
      exact (hfields j hjl).1
    · have : j = s.nodes.length := by omega
      subst this
      rw [nodeAt_append_self, hnew]
  constructor
  · constructor
    case toBaseInv =>
      constructor
      · exact hTr3
      · -- parentOK
        intro a ha q hq
        simp only [hlen3] at ha
        by_cases hai : a = i
        · subst hai
          rw [hleft] at hq
          simp only at hq
          cases hq
          refine ⟨by omega, by simp only [hlen3]; omega, Or.inl ?_⟩
          rw [hnew]
        · by_cases hav : a = v
          · subst hav
            rw [hright] at hq
            simp only at hq
            cases hq
            refine ⟨by omega, by simp only [hlen3]; omega, Or.inr ?_⟩
            rw [hnew]
          · by_cases halen : a < s.nodes.length
            · rw [nodeAt_merged_other sha s.nodes i v a halen hai hav] at hq
              obtain ⟨h1, h2, h3⟩ := hinv.parentOK a halen q hq
              refine ⟨h1, by simp only [hlen3]; omega, ?_⟩
              have := hfields q h2
              rcases h3 with h3 | h3
              · exact Or.inl (by rw [this.2.2.1]; exact h3)
              · exact Or.inr (by rw [this.2.2.2]; exact h3)
            · have : a = s.nodes.length := by omega
              subst this
              rw [hnew] at hq
              exact Option.noConfusion hq
      · -- childOK
        intro a ha
        simp only [hlen3] at ha
        by_cases haeq : a = s.nodes.length
        · subst haeq
          rw [hnew]
          refine Or.inr ⟨i, v, rfl, rfl, by omega, by omega, ?_, ?_, ?_⟩
          · simp only
            rw [(hfields i (by omega)).1, (hfields v (by omega)).1]
          · rw [(hfields i (by omega)).2.1, (hfields v (by omega)).2.1]
            exact hsz
          · simp only
            rw [(hfields i (by omega)).2.1]
        · have halen : a < s.nodes.length := by omega
          have hfa := hfields a halen
          rcases hinv.childOK a halen with h | ⟨l', r', h1, h2, h3, h4, h5, h6, h7⟩
          · exact Or.inl ⟨by rw [hfa.2.2.1]; exact h.1, by rw [hfa.2.2.2]; exact h.2.1,
              by rw [hfa.2.1]; exact h.2.2⟩
          · refine Or.inr ⟨l', r', by rw [hfa.2.2.1]; exact h1,
              by rw [hfa.2.2.2]; exact h2, h3, h4, ?_, ?_, ?_⟩
            · rw [hfa.1, (hfields l' (by omega)).1, (hfields r' (by omega)).1]
              exact h5
            · rw [(hfields l' (by omega)).2.1, (hfields r' (by omega)).2.1]
              exact h6
            · rw [hfa.2.1, (hfields l' (by omega)).2.1]
              exact h7
      · -- nextOK
        intro a ha b hb
        exact hdec3 a b hb
      · -- headOK
        intro h0 hh0
        simp only at hh0
        have := hdec1 i h0 hh0
        simp only [hlen3]
        omega
    · -- vLt
      simp only [hlen3]
      omega
    · -- vParent
      simp only
      rw [hnew]
    · -- vNext
      simp only
      rw [hnew]
    · -- chainLt
      intro j hj
      rw [hchain2] at hj
      have := htlmem j hj
      omega
    · -- chainRootV
      intro a ha
      simp only [hlen3] at ha
      rw [hchain2]
      by_cases haeq : a = s.nodes.length
      · subst haeq
        rw [hnew]
        simp only
        constructor
        · intro _
          exact Or.inr (by trivial)
        · intro _
          trivial
      · have halen : a < s.nodes.length := by omega
        by_cases hai : a = i
        · subst hai
          rw [hleft]
          simp only
          constructor
          · intro hc; exact Option.noConfusion hc
          · rintro (hmem | heq)
            · exact absurd (htlmem _ hmem) (by omega)
            · omega
        · by_cases hav : a = v
          · subst hav
            rw [hright]
            simp only
            constructor
            · intro hc; exact Option.noConfusion hc
            · rintro (hmem | heq)
              · exact absurd (htlmem _ hmem) (by omega)
              · omega
          · rw [nodeAt_merged_other sha s.nodes i v a halen hai hav]
            have hold := hinv.chainRootV a halen
            rw [hchtail] at hold
            constructor
            · intro hp
              rcases hold.mp hp with hmem | heq
              · rcases List.mem_cons.mp hmem with heq2 | hmem2
                · exact absurd heq2 hai
                · exact Or.inl hmem2
              · exact absurd heq hav
            · rintro (hmem | heq)
              · exact hold.mpr (Or.inl (List.mem_cons_of_mem _ hmem))
              · exact absurd heq haeq
    · -- carryEq
      rw [hsizes2, hnew]
      simp only
      have hold := hinv.carryEq
      rw [hsizes_old] at hold
      rw [← hsz] at hold
      rw [carry] at hold
      rw [if_pos rfl] at hold
      exact hold
  · rw [hchain2, hchtail]
    rfl

/-! ### Splicing the finished node into the root list -/

theorem rootChain_splice (s : MMRAccumulator) (v : Nat)
    (hdec : ∀ i j, (nodeAt s.nodes i).next = some j → j < i)
    (hv : v < s.nodes.length)
    (hchainLt : ∀ j ∈ rootChain s, j < v)
    (hheadOK : ∀ h, s.head = some h → h < s.nodes.length) :
    rootChain (spliceRoot s v) = v :: rootChain s ∧
    rootSizes (spliceRoot s v) =
      (nodeAt s.nodes v).n_leaves :: rootSizes s := by
  set nv : MMRNode := { nodeAt s.nodes v with next := s.head } with hnv
  have hsplice : spliceRoot s v =
      ⟨s.nodes.set v nv, some v, s.tracker⟩ := rfl
  have hlen2 : (s.nodes.set v nv).length = s.nodes.length := List.length_set _ _ _
  have hvself : nodeAt (s.nodes.set v nv) v = nv := nodeAt_set_self _ _ _ hv
  have hdec2 : ∀ a b, (nodeAt (s.nodes.set v nv) a).next = some b → b < a := by
    intro a b hab
    by_cases hav : a = v
    · subst hav
      rw [hvself] at hab
      simp only [hnv] at hab
      have hmem : b ∈ rootChain s := by
        unfold rootChain
        rw [hab]
        have hb : b < s.nodes.length := hheadOK b hab
        obtain ⟨m, hm⟩ : ∃ m, s.nodes.length = m + 1 := ⟨s.nodes.length - 1, by omega⟩
        rw [hm, rootChainAux]
        exact List.mem_cons_self _ _
      exact hchainLt b hmem
    · rw [nodeAt_set_ne _ _ _ _ (fun hc => hav hc.symm)] at hab
      exact hdec a b hab
  have hchain : rootChain (spliceRoot s v) = v :: rootChain s := by
    rw [hsplice]
    show rootChainAux (s.nodes.set v nv) (s.nodes.set v nv).length (some v) =
      v :: rootChain s
    rw [hlen2]
    obtain ⟨m, hm⟩ : ∃ m, s.nodes.length = m + 1 := ⟨s.nodes.length - 1, by omega⟩
    rw [hm, rootChainAux, hvself]
    congr 1
    show rootChainAux (s.nodes.set v nv) m s.head = rootChain s
    match hh : s.head with
    | none =>
      rw [rootChainAux_none]
      unfold rootChain
      rw [hh, rootChainAux_none]
    | some h0 =>
      have hh0len : h0 < s.nodes.length := hheadOK h0 hh
      have hh0chain : h0 ∈ rootChain s := by
        rw [rootChain_cons s h0 hh hh0len]
        exact List.mem_cons_self _ _
      have hh0v : h0 < v := hchainLt h0 hh0chain
      unfold rootChain
      rw [hh]
      calc rootChainAux (s.nodes.set v nv) m (some h0)
          = rootChainAux (s.nodes.set v nv) (h0 + 1) (some h0) :=
            rootChainAux_fuel _ hdec2 h0 _ _ (by omega) (by omega)
        _ = rootChainAux s.nodes (h0 + 1) (some h0) := by
            refine rootChainAux_congr _ _ h0 hdec2 ?_ _ _
              (fun a ha => by cases ha; omega)
            intro j hj
            exact nodeAt_set_ne _ _ _ _ (by omega)
        _ = rootChainAux s.nodes s.nodes.length (some h0) :=
            rootChainAux_fuel _ hdec h0 _ _ (by omega) (by omega)
  refine ⟨hchain, ?_⟩
  unfold rootSizes
  rw [hchain]
  simp only [List.map_cons]
  have h1 : (nodeAt (spliceRoot s v).nodes v).n_leaves =
      (nodeAt s.nodes v).n_leaves := by
    show (nodeAt (s.nodes.set v nv) v).n_leaves = _
    rw [hvself]
  have h2 : List.map (fun j => (nodeAt (spliceRoot s v).nodes j).n_leaves)
      (rootChain s) = List.map (fun j => (nodeAt s.nodes j).n_leaves)
      (rootChain s) := by
    apply List.map_congr_left
    intro j hj
    have hjv : j < v := hchainLt j hj
    show (nodeAt (s.nodes.set v nv) j).n_leaves = _
    rw [nodeAt_set_ne _ _ _ _ (by omega)]
  rw [h1, h2]

theorem AccInv_splice (sha : HashFn) (M : Nat) (s : MMRAccumulator) (v : Nat)
    (hinv : LoopInv sha M s v)
    (hstop : s.head = none ∨ ∃ i, s.head = some i ∧
      (nodeAt s.nodes i).n_leaves ≠ (nodeAt s.nodes v).n_leaves) :
    AccInv sha M (spliceRoot s v) := by
  have hv : v < s.nodes.length := hinv.vLt
  have hdec1 := hinv.nextDec
  obtain ⟨hchain, hsizes⟩ := rootChain_splice s v hdec1 hv hinv.chainLt hinv.headOK
  set nv : MMRNode := { nodeAt s.nodes v with next := s.head } with hnv
  have hsplice : spliceRoot s v =
      ⟨s.nodes.set v nv, some v, s.tracker⟩ := rfl
  have hlen2 : (s.nodes.set v nv).length = s.nodes.length := List.length_set _ _ _
  have hvself : nodeAt (s.nodes.set v nv) v = nv := nodeAt_set_self _ _ _ hv
  have hfields2 : ∀ a, (nodeAt (s.nodes.set v nv) a).parent = (nodeAt s.nodes a).parent ∧
      (nodeAt (s.nodes.set v nv) a).left = (nodeAt s.nodes a).left ∧
      (nodeAt (s.nodes.set v nv) a).right = (nodeAt s.nodes a).right ∧
      (nodeAt (s.nodes.set v nv) a).hash = (nodeAt s.nodes a).hash ∧
      (nodeAt (s.nodes.set v nv) a).n_leaves = (nodeAt s.nodes a).n_leaves := by
    intro a
    by_cases hav : a = v
    · subst hav
      rw [hvself]
      exact ⟨rfl, rfl, rfl, rfl, rfl⟩
    · rw [nodeAt_set_ne _ _ _ _ (fun hc => hav hc.symm)]
      exact ⟨rfl, rfl, rfl, rfl, rfl⟩
  have hdec2 : ∀ a b, (nodeAt (s.nodes.set v nv) a).next = some b → b < a := by
    intro a b hab
    by_cases hav : a = v
    · subst hav
      rw [hvself] at hab
      simp only [hnv] at hab
      have hb : b < s.nodes.length := hinv.headOK b hab
      have hmem : b ∈ rootChain s := by
        rw [rootChain_cons s b hab hb]
        exact List.mem_cons_self _ _
      exact hinv.chainLt b hmem
    · rw [nodeAt_set_ne _ _ _ _ (fun hc => hav hc.symm)] at hab
      exact hdec1 a b hab
  rw [hsplice] at hchain hsizes ⊢
  constructor
  case toBaseInv =>
    constructor
    · exact TrInv_congr s.nodes _ s.tracker hinv.tr hlen2
        (fun a ha => (hfields2 a).2.2.2.1)
    · intro a ha p hp
      simp only [hlen2] at ha
      rw [(hfields2 a).1] at hp
      obtain ⟨h1, h2, h3⟩ := hinv.parentOK a ha p hp
      refine ⟨h1, by simp only [hlen2]; omega, ?_⟩
      rw [(hfields2 p).2.1, (hfields2 p).2.2.1]
      exact h3
    · intro a ha
      simp only [hlen2] at ha
      rcases hinv.childOK a ha with h | ⟨l', r', h1, h2, h3, h4, h5, h6, h7⟩
      · exact Or.inl ⟨by rw [(hfields2 a).2.1]; exact h.1,
          by rw [(hfields2 a).2.2.1]; exact h.2.1,
          by rw [(hfields2 a).2.2.2.2]; exact h.2.2⟩
      · refine Or.inr ⟨l', r', by rw [(hfields2 a).2.1]; exact h1,
          by rw [(hfields2 a).2.2.1]; exact h2, h3, h4, ?_, ?_, ?_⟩
        · rw [(hfields2 a).2.2.2.1, (hfields2 l').2.2.2.1, (hfields2 r').2.2.2.1]
          exact h5
        · rw [(hfields2 l').2.2.2.2, (hfields2 r').2.2.2.2]
          exact h6
        · rw [(hfields2 a).2.2.2.2, (hfields2 l').2.2.2.2]
          exact h7
    · intro a ha b hb
      exact hdec2 a b hb
    · intro h0 hh0
      simp only at hh0
      cases hh0
      simp only [hlen2]
      omega
  · -- chainRoot
    intro a ha
    simp only [hlen2] at ha
    rw [hchain]
    show (nodeAt (s.nodes.set v nv) a).parent = none ↔ _
    rw [(hfields2 a).1]
    rw [hinv.chainRootV a ha]
    rw [List.mem_cons]
    tauto
  · -- sizesEq
    show rootSizes (⟨s.nodes.set v nv, some v, s.tracker⟩ : MMRAccumulator) = _
    rw [hsizes]
    have hcarry := hinv.carryEq
    rcases hstop with hh | ⟨i, hh, hne⟩
    · have : rootSizes s = [] := by
        unfold rootSizes rootChain
        rw [hh, rootChainAux_none]
        rfl
      rw [this] at hcarry ⊢
      rw [carry] at hcarry
      exact hcarry
    · have hi : i < s.nodes.length := hinv.headOK i hh
      have : rootSizes s = (nodeAt s.nodes i).n_leaves ::
          (rootChainAux s.nodes (s.nodes.length - 1) (nodeAt s.nodes i).next).map
            (fun j => (nodeAt s.nodes j).n_leaves) := by
        unfold rootSizes
        rw [rootChain_cons s i hh hi]
        simp
      rw [this] at hcarry ⊢
      rw [carry, if_neg hne] at hcarry
      exact hcarry

/-! ### The add loop -/

theorem rootChainAux_length_le (nodes : List MMRNode) :
    ∀ fuel cur, (rootChainAux nodes fuel cur).length ≤ fuel := by
  intro fuel
  induction fuel with
  | zero => intro cur; cases cur <;> simp [rootChainAux]
  | succ fuel ih =>
    intro cur
    cases cur with
    | none => rw [rootChainAux_none]; simp
    | some i =>
      rw [rootChainAux]
      simp only [List.length_cons]
      exact Nat.succ_le_succ (ih _)

theorem addLoop_spec (sha : HashFn) (M : Nat) :
    ∀ (fuel : Nat) (s : MMRAccumulator) (v : Nat) (o : List Bool)
      (s' : MMRAccumulator) (o' : List Bool),
      LoopInv sha M s v → (rootChain s).length < fuel →
      addLoop sha fuel s v o = (true, s', o') →
      AccInv sha M s' := by
  intro fuel
  induction fuel with
  | zero => intro s v o s' o' _ hlen _; omega
  | succ fuel ih =>
    intro s v o s' o' hinv hlen h
    rw [addLoop] at h
    match hh : s.head with
    | none =>
      rw [hh] at h
      simp only at h
      have hs' : spliceRoot s v = s' := congrArg Prod.fst (congrArg Prod.snd h)
      rw [← hs']
      exact AccInv_splice sha M s v hinv (Or.inl hh)
    | some i =>
      rw [hh] at h
      simp only at h
      by_cases hsz : (nodeAt s.nodes i).n_leaves = (nodeAt s.nodes v).n_leaves
      · rw [if_pos hsz] at h
        rcases hm : merge_nodes sha s i v o with ⟨po, s2, o2⟩
        rw [hm] at h
        match po with
        | none =>
          simp only at h
          exact absurd (congrArg Prod.fst h) (by simp)
        | some p =>
          simp only at h
          obtain ⟨hsz2, hp, t', o1, hins, hs2⟩ :=
            merge_nodes_some sha s i v o p s2 o2 hm
          subst hp
          subst hs2
          obtain ⟨hinv2, hchain2⟩ :=
            LoopInv_merge_step sha M s v i o2 t' o1 hinv hh hsz hins
          refine ih _ _ _ _ _ hinv2 ?_ h
          rw [rootChain_cons s i hh (hinv.headOK i hh)] at hlen
          simp only [List.length_cons] at hlen
          rw [hchain2, List.length_tail, rootChain_cons s i hh (hinv.headOK i hh)]
          simp only [List.length_cons]
          omega
      · rw [if_neg hsz] at h
        have hs' : spliceRoot s v = s' := congrArg Prod.fst (congrArg Prod.snd h)
        rw [← hs']
        exact AccInv_splice sha M s v hinv (Or.inr ⟨i, hh, hsz⟩)

theorem AccInv_init (sha : HashFn) : AccInv sha 0 mmrInit := by
  have hbucket : ∀ b, bucketAt mmrInit.tracker b = [] := by
    intro b
    show (List.replicate 16 ([] : List MMRItem)).getD b [] = []
    rw [List.getD_eq_getElem?_getD, List.getElem?_replicate]
    by_cases hb : b < 16 <;> simp [hb]
  constructor
  case toBaseInv =>
    constructor
    · constructor
      · simp [mmrInit]
      · intro b hb it hit
        rw [hbucket b] at hit
        simp at hit
      · intro i hi
        simp [mmrInit] at hi
    · intro i hi
      simp [mmrInit] at hi
    · intro i hi
      simp [mmrInit] at hi
    · intro i hi
      simp [mmrInit] at hi
    · intro h hh
      simp [mmrInit] at hh
  · intro i hi
    simp [mmrInit] at hi
  · show rootSizes mmrInit = binDecompAsc 0
    unfold rootSizes rootChain mmrInit
    simp only
    rw [rootChainAux_none]
    rw [binDecompAsc, bdA_zero]
    rfl

theorem mmr_add_inv (sha : HashFn) (N : Nat) (s : MMRAccumulator) (e : List Nat)
    (o : List Bool) (s' : MMRAccumulator) (o' : List Bool)
    (hinv : AccInv sha N s) (h : mmr_add sha s e o = (true, s', o')) :
    AccInv sha (N + 1) s' := by
  unfold mmr_add at h
  by_cases he : e = []
  · rw [if_pos he] at h
    exact absurd (congrArg Prod.fst h) (by simp)
  · rw [if_neg he] at h
    rcases hcl : create_leaf sha s e o with ⟨vo, s2, o2⟩
    rw [hcl] at h
    match vo with
    | none =>
      simp only at h
      exact absurd (congrArg Prod.fst h) (by simp)
    | some v =>
      simp only at h
      obtain ⟨hinv2, hchain2, hv, hhead2, hnodes2⟩ :=
        LoopInv_after_leaf sha N s e o v s2 o2 hinv hcl
      refine addLoop_spec sha (N + 1) (s2.nodes.length + 1) s2 v o2 s' o' hinv2 ?_ h
      have := rootChainAux_length_le s2.nodes s2.nodes.length s2.head
      unfold rootChain
      omega

/-! ### Hash preservation across adds -/

theorem nodeAt_set_hash_pres (nodes : List MMRNode) (k : Nat) (rec : MMRNode)
    (hrec : rec.hash = (nodeAt nodes k).hash) (j : Nat) :
    (nodeAt (nodes.set k rec) j).hash = (nodeAt nodes j).hash := by
  by_cases hjk : j = k
  · subst hjk
    by_cases hj : j < nodes.length
    · rw [nodeAt_set_self _ _ _ hj, hrec]
    · rw [List.set_eq_of_length_le (by omega)]
  · rw [nodeAt_set_ne _ _ _ _ (fun hc => hjk hc.symm)]

theorem merged_hash_pres (sha : HashFn) (nodes : List MMRNode) (l r j : Nat)
    (hj : j < nodes.length) :
    (nodeAt (mergedArena sha nodes l r) j).hash = (nodeAt nodes j).hash := by
  by_cases hjr : j = r
  · subst hjr
    rw [nodeAt_merged_right sha nodes l j hj]
  · by_cases hjl : j = l
    · subst hjl
      rw [nodeAt_merged_left sha nodes j r hj hjr]
    · rw [nodeAt_merged_other sha nodes l r j hj hjl hjr]

theorem merge_nodes_none (sha : HashFn) (s : MMRAccumulator) (l r : Nat)
    (o : List Bool) (s2 : MMRAccumulator) (o2 : List Bool)
    (h : merge_nodes sha s l r o = (none, s2, o2)) :
    s2.nodes = s.nodes ∧ s2.head = s.head := by
  unfold merge_nodes at h
  by_cases hsz : (nodeAt s.nodes l).n_leaves ≠ (nodeAt s.nodes r).n_leaves
  · rw [if_pos hsz] at h
    have h2 : s = s2 := congrArg (fun q => q.2.1) h
    rw [← h2]
    exact ⟨rfl, rfl⟩
  · rw [if_neg hsz] at h
    rcases hok : allocOk o with ⟨ok, o1⟩
    rw [hok] at h
    cases ok with
    | false =>
      simp only [Bool.false_eq_true, if_false] at h
      have h2 : s = s2 := congrArg (fun q => q.2.1) h
      rw [← h2]
      exact ⟨rfl, rfl⟩
    | true =>
      simp only [if_pos] at h
      rcases hins : mmr_tr_insert s.nodes s.tracker
          (merkleHash sha (nodeAt s.nodes l).hash (nodeAt s.nodes r).hash)
          s.nodes.length o1 with ⟨bf, t', o''⟩
      rw [hins] at h
      cases bf with
      | false =>
        have h2 : ({ s with tracker := t' } : MMRAccumulator) = s2 :=
          congrArg (fun q => q.2.1) h
        rw [← h2]
        exact ⟨rfl, rfl⟩
      | true => exact absurd (congrArg Prod.fst h) (by simp)

theorem addLoop_mono (sha : HashFn) :
    ∀ (fuel : Nat) (s : MMRAccumulator) (v : Nat) (o : List Bool) (b : Bool)
      (s' : MMRAccumulator) (o' : List Bool),
      addLoop sha fuel s v o = (b, s', o') →
      s.nodes.length ≤ s'.nodes.length ∧
      ∀ j, j < s.nodes.length →
        (nodeAt s'.nodes j).hash = (nodeAt s.nodes j).hash := by
  intro fuel
  induction fuel with
  | zero =>
    intro s v o b s' o' h
    rw [addLoop] at h
    have h2 : s = s' := congrArg (fun q => q.2.1) h
    rw [← h2]
    exact ⟨Nat.le_refl _, fun j hj => rfl⟩
  | succ fuel ih =>
    intro s v o b s' o' h
    rw [addLoop] at h
    have hsplicecase : spliceRoot s v = s' →
        s.nodes.length ≤ s'.nodes.length ∧
        ∀ j, j < s.nodes.length →
          (nodeAt s'.nodes j).hash = (nodeAt s.nodes j).hash := by
      intro hs'
      rw [← hs']
      constructor
      · show (s.nodes.set v _).length ≥ s.nodes.length
        rw [List.length_set]
      · intro j hj
        show (nodeAt (s.nodes.set v { nodeAt s.nodes v with next := s.head }) j).hash =
          (nodeAt s.nodes j).hash
        exact nodeAt_set_hash_pres s.nodes v
          { nodeAt s.nodes v with next := s.head } rfl j
    match hh : s.head with
    | none =>
      rw [hh] at h
      simp only at h
      exact hsplicecase (congrArg (fun q => q.2.1) h)
    | some i =>
      rw [hh] at h
      simp only at h
      by_cases hsz : (nodeAt s.nodes i).n_leaves = (nodeAt s.nodes v).n_leaves
      · rw [if_pos hsz] at h
        rcases hm : merge_nodes sha s i v o with ⟨po, s2, o2⟩
        rw [hm] at h
        match po with
        | none =>
          simp only at h
          have hs2 : s2 = s' := congrArg (fun q => q.2.1) h
          obtain ⟨hn, -⟩ := merge_nodes_none sha s i v o s2 o2 hm
          rw [← hs2, hn]
          exact ⟨Nat.le_refl _, fun j hj => rfl⟩
        | some p =>
          simp only at h
          obtain ⟨hsz2, hp, t', o1, hins, hs2⟩ :=
            merge_nodes_some sha s i v o p s2 o2 hm
          subst hp
          subst hs2
          obtain ⟨ihl, ihh⟩ := ih _ _ _ _ _ _ h
          simp only [mergedArena_length] at ihl ihh
          constructor
          · omega
          · intro j hj
            rw [ihh j (by omega)]
            exact merged_hash_pres sha s.nodes i v j hj
      · rw [if_neg hsz] at h
        exact hsplicecase (congrArg (fun q => q.2.1) h)

theorem create_leaf_none (sha : HashFn) (s : MMRAccumulator) (e : List Nat)
    (o : List Bool) (s2 : MMRAccumulator) (o2 : List Bool)
    (h : create_leaf sha s e o = (none, s2, o2)) :
    s2.nodes = s.nodes ∧ s2.head = s.head := by
  unfold create_leaf at h
  by_cases he : e = []
  · rw [if_pos he] at h
    have h2 : s = s2 := congrArg (fun q => q.2.1) h
    rw [← h2]
    exact ⟨rfl, rfl⟩
  · rw [if_neg he] at h
    rcases hok : allocOk o with ⟨ok, o1⟩
    rw [hok] at h
    cases ok with
    | false =>
      simp only [Bool.false_eq_true, if_false] at h
      have h2 : s = s2 := congrArg (fun q => q.2.1) h
      rw [← h2]
      exact ⟨rfl, rfl⟩
    | true =>
      simp only [if_pos] at h
      rcases hins : mmr_tr_insert s.nodes s.tracker (sha e) s.nodes.length o1 with
        ⟨bf, t', o''⟩
      rw [hins] at h
      cases bf with
      | false =>
        have h2 : ({ s with tracker := t' } : MMRAccumulator) = s2 :=
          congrArg (fun q => q.2.1) h
        rw [← h2]
        exact ⟨rfl, rfl⟩
      | true => exact absurd (congrArg Prod.fst h) (by simp)

theorem mmr_add_mono (sha : HashFn) (s : MMRAccumulator) (e : List Nat)
    (o : List Bool) (b : Bool) (s' : MMRAccumulator) (o' : List Bool)
    (h : mmr_add sha s e o = (b, s', o')) :
    s.nodes.length ≤ s'.nodes.length ∧
    ∀ j, j < s.nodes.length →
      (nodeAt s'.nodes j).hash = (nodeAt s.nodes j).hash := by
  unfold mmr_add at h
  by_cases he : e = []
  · rw [if_pos he] at h
    have h2 : s = s' := congrArg (fun q => q.2.1) h
    rw [← h2]
    exact ⟨Nat.le_refl _, fun j hj => rfl⟩
  · rw [if_neg he] at h
    rcases hcl : create_leaf sha s e o with ⟨vo, s2, o2⟩
    rw [hcl] at h
    match vo with
    | none =>
      simp only at h
      have hs2 : s2 = s' := congrArg (fun q => q.2.1) h
      obtain ⟨hn, -⟩ := create_leaf_none sha s e o s2 o2 hcl
      rw [← hs2, hn]
      exact ⟨Nat.le_refl _, fun j hj => rfl⟩
    | some v =>
      simp only at h
      obtain ⟨-, -, t', o1, hins, hs2⟩ := create_leaf_some sha s e o v s2 o2 hcl
      obtain ⟨hl, hg⟩ := addLoop_mono sha _ _ _ _ _ _ _ h
      have hlen2 : s2.nodes.length = s.nodes.length + 1 := by
        rw [hs2]; simp
      constructor
      · omega
      · intro j hj
        rw [hg j (by omega)]
        have : nodeAt s2.nodes j =
            nodeAt (s.nodes ++ [⟨sha e, 1, none, none, none, none⟩]) j := by
          rw [hs2]
        rw [this, nodeAt_append_lt _ _ _ hj]

theorem mmr_add_leaf (sha : HashFn) (s : MMRAccumulator) (e : List Nat)
    (o : List Bool) (s' : MMRAccumulator) (o' : List Bool)
    (h : mmr_add sha s e o = (true, s', o')) :
    ∃ i, i < s'.nodes.length ∧ (nodeAt s'.nodes i).hash = sha e := by
  unfold mmr_add at h
  by_cases he : e = []
  · rw [if_pos he] at h
    exact absurd (congrArg Prod.fst h) (by simp)
  · rw [if_neg he] at h
    rcases hcl : create_leaf sha s e o with ⟨vo, s2, o2⟩
    rw [hcl] at h
    match vo with
    | none =>
      simp only at h
      exact absurd (congrArg Prod.fst h) (by simp)
    | some v =>
      simp only at h
      obtain ⟨-, hv, t', o1, hins, hs2⟩ := create_leaf_some sha s e o v s2 o2 hcl
      obtain ⟨hl, hg⟩ := addLoop_mono sha _ _ _ _ _ _ _ h
      have hlen2 : s2.nodes.length = s.nodes.length + 1 := by
        rw [hs2]; simp
      refine ⟨s.nodes.length, by omega, ?_⟩
      rw [hg s.nodes.length (by omega)]
      have : nodeAt s2.nodes s.nodes.length =
          nodeAt (s.nodes ++ [⟨sha e, 1, none, none, none, none⟩]) s.nodes.length := by
        rw [hs2]
      rw [this, nodeAt_append_self]

/-! ### Sequences of adds -/

theorem foldl_addStep_flag (sha : HashFn) :
    ∀ (steps : List (List Nat × List Bool)) (b0 : Bool) (s0 : MMRAccumulator),
      (List.foldl (addStep sha) (b0, s0) steps).1 = true → b0 = true := by
  intro steps
  induction steps with
  | nil => intro b0 s0 h; exact h
  | cons st sts ih =>
    intro b0 s0 h
    rw [List.foldl_cons] at h
    rcases hadd : mmr_add sha s0 st.1 st.2 with ⟨badd, s1, o1⟩
    have hstep : addStep sha (b0, s0) st = (b0 && badd, s1) := by
      unfold addStep
      rw [hadd]
    rw [hstep] at h
    have h2 := ih _ _ h
    simp only [Bool.and_eq_true] at h2
    exact h2.1

theorem foldl_addStep_spec (sha : HashFn) :
    ∀ (steps : List (List Nat × List Bool)) (b0 : Bool) (s0 : MMRAccumulator)
      (N : Nat),
      AccInv sha N s0 →
      (List.foldl (addStep sha) (b0, s0) steps).1 = true →
      AccInv sha (N + steps.length) (List.foldl (addStep sha) (b0, s0) steps).2 ∧
      s0.nodes.length ≤ (List.foldl (addStep sha) (b0, s0) steps).2.nodes.length ∧
      (∀ j, j < s0.nodes.length →
        (nodeAt (List.foldl (addStep sha) (b0, s0) steps).2.nodes j).hash =
          (nodeAt s0.nodes j).hash) ∧
      (∀ st ∈ steps, ∃ i,
        i < (List.foldl (addStep sha) (b0, s0) steps).2.nodes.length ∧
        (nodeAt (List.foldl (addStep sha) (b0, s0) steps).2.nodes i).hash =
          sha st.1) := by
  intro steps
  induction steps with
  | nil =>
    intro b0 s0 N hinv h
    simp only [List.foldl_nil, List.length_nil, Nat.add_zero]
    refine ⟨hinv, Nat.le_refl _, ?_, ?_⟩ <;> simp
  | cons st sts ih =>
    intro b0 s0 N hinv h
    rw [List.foldl_cons] at h ⊢
    rcases hadd : mmr_add sha s0 st.1 st.2 with ⟨badd, s1, o1⟩
    have hstep : addStep sha (b0, s0) st = (b0 && badd, s1) := by
      unfold addStep
      rw [hadd]
    rw [hstep] at h ⊢
    have hband : (b0 && badd) = true := foldl_addStep_flag sha sts _ _ h
    simp only [Bool.and_eq_true] at hband
    have hbadd : badd = true := hband.2
    subst hbadd
    have hinv1 : AccInv sha (N + 1) s1 :=
      mmr_add_inv sha N s0 st.1 st.2 s1 o1 hinv hadd
    obtain ⟨hI, hL, hH, hE⟩ := ih (b0 && true) s1 (N + 1) hinv1 h
    obtain ⟨haddL, haddH⟩ := mmr_add_mono sha s0 st.1 st.2 true s1 o1 hadd
    obtain ⟨iLeaf, hiL, hiH⟩ := mmr_add_leaf sha s0 st.1 st.2 s1 o1 hadd
    refine ⟨?_, ?_, ?_, ?_⟩
    · have heq : N + (st :: sts).length = N + 1 + sts.length := by
        simp only [List.length_cons]
        omega
      rw [heq]
      exact hI
    · omega
    · intro j hj
      rw [hH j (by omega)]
      exact haddH j hj
    · intro st2 hst2
      rcases List.mem_cons.mp hst2 with rfl | hst2
      · refine ⟨iLeaf, by omega, ?_⟩
        rw [hH iLeaf hiL]
        exact hiH
      · exact hE st2 hst2

theorem addSeq_spec (sha : HashFn) (steps : List (List Nat × List Bool))
    (h : (addSeq sha steps).1 = true) :
    AccInv sha steps.length (addSeq sha steps).2 ∧
    ∀ st ∈ steps, ∃ i, i < (addSeq sha steps).2.nodes.length ∧
      (nodeAt (addSeq sha steps).2.nodes i).hash = sha st.1 := by
  have hspec := foldl_addStep_spec sha steps true mmrInit 0 (AccInv_init sha) h
  exact ⟨by simpa using hspec.1, hspec.2.2.2⟩

/-! ### Witness construction and verification -/

theorem getD_mem_of_lt {α : Type _} (l : List α) (pos : Nat) (d : α)
    (h : pos < l.length) : l.getD pos d ∈ l := by
  rw [List.getD_eq_getElem?_getD, List.getElem?_eq_getElem h]
  exact List.getElem_mem h

theorem getD_append_left {α : Type _} (l1 l2 : List α) (d : α) (i : Nat)
    (h : i < l1.length) : (l1 ++ l2).getD i d = l1.getD i d := by
  simp [List.getD_eq_getElem?_getD, List.getElem?_append, h]

theorem getD_append_len {α : Type _} (l1 l2 : List α) (x d : α) :
    (l1 ++ (x :: l2)).getD l1.length d = x := by
  rw [List.getD_eq_getElem?_getD, List.getElem?_append_right (Nat.le_refl _)]
  simp

theorem and_one_shift_eq_testBit (n i : Nat) :
    ((n >>> i) &&& 1 = 1) ↔ n.testBit i = true := by
  rw [Nat.and_one_is_mod, Nat.shiftRight_eq_div_pow, Nat.testBit_to_div_mod]
  simp

theorem size_pos (sha : HashFn) (s : MMRAccumulator) (hinv : BaseInv sha s) :
    ∀ i, i < s.nodes.length → 1 ≤ (nodeAt s.nodes i).n_leaves := by
  intro i
  induction i using Nat.strong_induction_on with
  | _ i ih =>
    intro hi
    rcases hinv.childOK i hi with hc | ⟨l', r', _, _, hl, _, _, _, hdbl⟩
    · rw [hc.2.2]
    · rw [hdbl]
      have := ih l' hl (by omega)
      omega

theorem size_le_total (sha : HashFn) (N : Nat) (s : MMRAccumulator)
    (hinv : AccInv sha N s) :
    ∀ d i, s.nodes.length - i ≤ d → i < s.nodes.length →
      (nodeAt s.nodes i).n_leaves ≤ N := by
  intro d
  induction d with
  | zero => intro i hd hi; omega
  | succ d ih =>
    intro i hd hi
    match hp : (nodeAt s.nodes i).parent with
    | none =>
      have hmem : i ∈ rootChain s := (hinv.chainRoot i hi).mp hp
      have hmem2 : (nodeAt s.nodes i).n_leaves ∈ rootSizes s :=
        List.mem_map_of_mem _ hmem
      rw [hinv.sizesEq] at hmem2
      exact mem_binDecompAsc_le N _ hmem2
    | some p =>
      obtain ⟨h1, h2, h3⟩ := hinv.parentOK i hi p hp
      have hple : (nodeAt s.nodes p).n_leaves ≤ N := ih p (by omega) h2
      rcases hinv.childOK p h2 with hc | ⟨l', r', hcl, hcr, _, _, _, hlr, hdbl⟩
      · rcases h3 with h3 | h3
        · rw [hc.1] at h3; exact Option.noConfusion h3
        · rw [hc.2.1] at h3; exact Option.noConfusion h3
      · rcases h3 with h3 | h3
        · rw [hcl] at h3
          have hli : l' = i := Option.some.inj h3
          subst hli
          omega
        · rw [hcr] at h3
          have hri : r' = i := Option.some.inj h3
          subst hri
          omega

theorem witnessWalk_spec (sha : HashFn) (N : Nat) (s : MMRAccumulator)
    (hinv : AccInv sha N s) (hN : N ≤ 2 ^ 63) :
    ∀ (fuel : Nat) (j level path : Nat) (sibs : List Digest),
      s.nodes.length - j < fuel → j < s.nodes.length →
      path < 2 ^ level → sibs.length = level →
      2 ^ level ≤ (nodeAt s.nodes j).n_leaves →
      ∃ lf pf sf r,
        witnessWalk s.nodes fuel j level path sibs = some (lf, pf, sf) ∧
        level ≤ lf ∧ sf.length = lf ∧ pf < 2 ^ lf ∧
        (∀ b, b < level → pf.testBit b = path.testBit b) ∧
        (∃ tail, sf = sibs ++ tail) ∧
        r < s.nodes.length ∧ (nodeAt s.nodes r).parent = none ∧
        foldFrom sha sf pf level (lf - level) (nodeAt s.nodes j).hash =
          (nodeAt s.nodes r).hash ∧
        (nodeAt s.nodes r).n_leaves =
          2 ^ (lf - level) * (nodeAt s.nodes j).n_leaves := by
  intro fuel
  induction fuel with
  | zero => intro j level path sibs hf; omega
  | succ fuel ih =>
    intro j level path sibs hf hj hpath hsibs hsize
    rw [witnessWalk]
    rcases hp : (nodeAt s.nodes j).parent with _ | p
    · refine ⟨level, path, sibs, j, rfl, Nat.le_refl _, hsibs, hpath,
        fun b hb => rfl, ⟨[], by simp⟩, hj, hp, ?_, ?_⟩
      · have h0 : level - level = 0 := by omega
        rw [h0]
        rfl
      · simp
    · obtain ⟨hjp, hplen, hchild⟩ := hinv.parentOK j hj p hp
      rcases hinv.childOK p hplen with hc | ⟨l', r', hcl, hcr, hl'p, hr'p,
        hhash, hlr, hdbl⟩
      · rcases hchild with h3 | h3
        · rw [hc.1] at h3; exact Option.noConfusion h3
        · rw [hc.2.1] at h3; exact Option.noConfusion h3
      · have hszp : (nodeAt s.nodes p).n_leaves =
            2 * (nodeAt s.nodes j).n_leaves := by
          rcases hchild with h3 | h3
          · rw [hcl] at h3
            have := Option.some.inj h3
            rw [hdbl, this]
          · rw [hcr] at h3
            have := Option.some.inj h3
            rw [hdbl, hlr, this]
        have hlevel : ¬ level ≥ 63 := by
          intro hge
          have h63 : (2:Nat) ^ 63 ≤ 2 ^ level := Nat.pow_le_pow_right (by omega) hge
          have hple := size_le_total sha N s hinv s.nodes.length p (by omega) hplen
          have hpos : (0:Nat) < 2 ^ 63 := by positivity
          omega
        simp only
        rw [if_neg hlevel]
        by_cases hleft : (nodeAt s.nodes p).left = some j
        · rw [if_pos hleft, hcr]
          have hl'j : l' = j := by
            rw [hcl] at hleft
            exact Option.some.inj hleft
          rw [hl'j] at hcl hl'p hhash hlr hdbl
          simp only
          have hIH := ih p (level + 1) (path ||| 1 <<< level)
            (sibs ++ [(nodeAt s.nodes r').hash]) (by omega) hplen
            (by
              rw [Nat.one_shiftLeft]
              exact Nat.or_lt_two_pow
                (by calc path < 2 ^ level := hpath
                      _ ≤ 2 ^ (level + 1) := Nat.pow_le_pow_right (by omega) (by omega))
                (Nat.pow_lt_pow_right (by omega) (by omega)))
            (by simp [hsibs])
            (by
              rw [hszp]
              have h2 : (2:Nat) ^ (level + 1) = 2 * 2 ^ level := by ring
              omega)
          obtain ⟨lf, pf, sf, r, heq, hlelf, hlensf, hpf, hbits,
            ⟨tail, htail⟩, hr, hrp, hfold, hszr⟩ := hIH
          refine ⟨lf, pf, sf, r, heq, by omega, hlensf, hpf, ?_, ?_, hr, hrp,
            ?_, ?_⟩
          · intro b hb
            rw [hbits b (by omega), Nat.one_shiftLeft, Nat.testBit_or,
              Nat.testBit_two_pow_of_ne (by omega)]
            simp
          · exact ⟨(nodeAt s.nodes r').hash :: tail, by rw [htail]; simp⟩
          · have hstep : lf - level = (lf - (level + 1)) + 1 := by omega
            rw [hstep, foldFrom]
            have hsib : sf.getD level [] = (nodeAt s.nodes r').hash := by
              rw [htail, List.append_assoc, ← hsibs]
              exact getD_append_len sibs tail _ []
            have hbit : pf.testBit level = true := by
              rw [hbits level (by omega), Nat.one_shiftLeft, Nat.testBit_or,
                Nat.testBit_two_pow_self]
              simp
            have hstepval : foldStep sha sf pf level (nodeAt s.nodes j).hash =
                (nodeAt s.nodes p).hash := by
              unfold foldStep
              simp only [hsib]
              rw [if_pos ((and_one_shift_eq_testBit pf level).mpr hbit)]
              rw [hhash]
            rw [hstepval]
            exact hfold
          · have hstep : lf - level = (lf - (level + 1)) + 1 := by omega
            rw [hszr, hszp, hstep, pow_succ]
            ring
        · have hrj : (nodeAt s.nodes p).right = some j := by
            rcases hchild with h3 | h3
            · exact absurd h3 hleft
            · exact h3
          rw [if_neg hleft, if_pos hrj, hcl]
          have hr'j : r' = j := by
            rw [hcr] at hrj
            exact Option.some.inj hrj
          rw [hr'j] at hcr hr'p hhash hlr
          simp only
          have hIH := ih p (level + 1) path
            (sibs ++ [(nodeAt s.nodes l').hash]) (by omega) hplen
            (by calc path < 2 ^ level := hpath
                  _ ≤ 2 ^ (level + 1) := Nat.pow_le_pow_right (by omega) (by omega))
            (by simp [hsibs])
            (by
              rw [hszp]
              have h2 : (2:Nat) ^ (level + 1) = 2 * 2 ^ level := by ring
              omega)
          obtain ⟨lf, pf, sf, r, heq, hlelf, hlensf, hpf, hbits,
            ⟨tail, htail⟩, hr, hrp, hfold, hszr⟩ := hIH
          refine ⟨lf, pf, sf, r, heq, by omega, hlensf, hpf, ?_, ?_, hr, hrp,
            ?_, ?_⟩
          · intro b hb
            exact hbits b (by omega)
          · exact ⟨(nodeAt s.nodes l').hash :: tail, by rw [htail]; simp⟩
          · have hstep : lf - level = (lf - (level + 1)) + 1 := by omega
            rw [hstep, foldFrom]
            have hsib : sf.getD level [] = (nodeAt s.nodes l').hash := by
              rw [htail, List.append_assoc, ← hsibs]
              exact getD_append_len sibs tail _ []
            have hbit : pf.testBit level = false := by
              rw [hbits level (by omega)]
              exact Nat.testBit_lt_two_pow hpath
            have hstepval : foldStep sha sf pf level (nodeAt s.nodes j).hash =
                (nodeAt s.nodes p).hash := by
              unfold foldStep
              simp only [hsib]
              rw [if_neg (fun hc => by
                rw [(and_one_shift_eq_testBit pf level).mp hc] at hbit
                exact Bool.noConfusion hbit)]
              rw [hhash]
            rw [hstepval]
            exact hfold
          · have hstep : lf - level = (lf - (level + 1)) + 1 := by omega
            rw [hszr, hszp, hstep, pow_succ]
            ring

theorem verifyLoop_of_final (sha : HashFn) (acc : MMRAccumulator)
    (sibs : List Digest) (path : Nat) :
    ∀ (k i : Nat) (h : Digest),
      mmr_tr_has_root acc (foldFrom sha sibs path i k h) = true →
      verifyLoop sha acc sibs path i k h = true := by
  intro k
  induction k with
  | zero =>
    intro i h hh
    rw [verifyLoop]
    exact hh
  | succ k ih =>
    intro i h hh
    rw [verifyLoop]
    by_cases hr : mmr_tr_has_root acc (foldStep sha sibs path i h) = true
    · simp [hr]
    · rw [if_neg hr]
      apply ih
      rw [foldFrom] at hh
      exact hh

theorem mmr_tr_get_found (s : MMRAccumulator) (hinv : TrInv s.nodes s.tracker)
    (h : Digest) (i : Nat) (hi : i < s.nodes.length)
    (hh : (nodeAt s.nodes i).hash = h) :
    ∃ pos, mmr_tr_get s.nodes s.tracker h =
        some (trIndex h s.tracker.items.length, pos) ∧
      pos < (bucketAt s.tracker (trIndex h s.tracker.items.length)).length ∧
      (nodeAt s.nodes ((bucketAt s.tracker (trIndex h s.tracker.items.length)).getD
        pos dItem).node).hash = h ∧
      ((bucketAt s.tracker (trIndex h s.tracker.items.length)).getD
        pos dItem).node < s.nodes.length := by
  obtain ⟨it, hit, hnode⟩ := hinv.tracked i hi
  rw [hh] at hit
  unfold mmr_tr_get
  rcases hfind : (bucketAt s.tracker (trIndex h s.tracker.items.length)).findIdx?
      (fun it => decide ((nodeAt s.nodes it.node).hash = h)) with _ | pos
  · exfalso
    have := findIdx?_none_spec _ _ 0 hfind it hit
    rw [hnode] at this
    simp [hh] at this
  · obtain ⟨-, hlt, hpred⟩ := findIdx?_some_spec dItem _ _ 0 _ hfind
    simp only [Nat.sub_zero] at hlt hpred
    simp only [decide_eq_true_eq] at hpred
    refine ⟨pos, ?_, hlt, hpred, ?_⟩
    · simp only
      rw [hfind]
    · have hmem := getD_mem_of_lt _ pos dItem hlt
      exact (hinv.bucketNode _ (trIndex_lt h _ hinv.capPos) _ hmem).1

/-! ### Witness-cache congruence -/

theorem map_node_set_witness (bucket : List MMRItem) :
    ∀ (pos : Nat) (w : MMRWitness),
      ((bucket.set pos { bucket.getD pos dItem with witness := some w }).map
        (fun it => it.node)) = bucket.map (fun it => it.node) := by
  induction bucket with
  | nil => intro pos w; rfl
  | cons x xs ih =>
    intro pos w
    match pos with
    | 0 => simp
    | pos + 1 =>
      simp only [List.set_cons_succ, List.map_cons, List.cons.injEq]
      exact ⟨trivial, ih pos w⟩

theorem setCache_items_length (t : MMRTracker) (b pos : Nat) (w : MMRWitness) :
    (setCache t b pos w).items.length = t.items.length := by
  unfold setCache
  simp

theorem bucketAt_setCache_map_node (t : MMRTracker) (b pos : Nat)
    (w : MMRWitness) (b' : Nat) :
    (bucketAt (setCache t b pos w) b').map (fun it => it.node) =
      (bucketAt t b').map (fun it => it.node) := by
  unfold setCache bucketAt
  simp only
  by_cases hb : b = b'
  · subst hb
    by_cases hlen : b < t.items.length
    · rw [getD_set_self _ _ _ _ hlen]
      exact map_node_set_witness _ pos w
    · rw [List.set_eq_of_length_le (by omega)]
  · rw [getD_set_ne _ _ _ _ _ hb]

theorem any_node_congr (p : Nat → Bool) :
    ∀ (l1 l2 : List MMRItem),
      l1.map (fun it => it.node) = l2.map (fun it => it.node) →
      l1.any (fun it => p it.node) = l2.any (fun it => p it.node) := by
  intro l1
  induction l1 with
  | nil =>
    intro l2 hmap
    cases l2 with
    | nil => rfl
    | cons y ys => simp at hmap
  | cons x xs ih =>
    intro l2 hmap
    cases l2 with
    | nil => simp at hmap
    | cons y ys =>
      simp only [List.map_cons, List.cons.injEq] at hmap
      simp only [List.any_cons, hmap.1]
      rw [ih ys hmap.2]

theorem has_root_setCache (acc : MMRAccumulator) (b pos : Nat) (w : MMRWitness)
    (d : Digest) :
    mmr_tr_has_root (⟨acc.nodes, acc.head, setCache acc.tracker b pos w⟩ :
      MMRAccumulator) d = mmr_tr_has_root acc d := by
  unfold mmr_tr_has_root
  simp only [setCache_items_length]
  exact any_node_congr
    (fun n => decide ((nodeAt acc.nodes n).parent = none ∧
      (nodeAt acc.nodes n).hash = d))
    _ _ (bucketAt_setCache_map_node acc.tracker b pos w _)

theorem verifyLoop_setCache (sha : HashFn) (acc : MMRAccumulator)
    (b pos : Nat) (w : MMRWitness) (sibs : List Digest) (path : Nat) :
    ∀ (k i : Nat) (h : Digest),
      verifyLoop sha (⟨acc.nodes, acc.head, setCache acc.tracker b pos w⟩ :
        MMRAccumulator) sibs path i k h = verifyLoop sha acc sibs path i k h := by
  intro k
  induction k with
  | zero =>
    intro i h
    rw [verifyLoop, verifyLoop]
    exact has_root_setCache acc b pos w h
  | succ k ih =>
    intro i h
    rw [verifyLoop, verifyLoop]
    rw [has_root_setCache acc b pos w]
    by_cases hr : mmr_tr_has_root acc (foldStep sha sibs path i h) = true
    · rw [if_pos hr, if_pos hr]
    · rw [if_neg hr, if_neg hr]
      exact ih _ _

theorem mmr_verify_setCache (sha : HashFn) (acc : MMRAccumulator)
    (b pos : Nat) (w w' : MMRWitness) :
    mmr_verify sha (⟨acc.nodes, acc.head, setCache acc.tracker b pos w⟩ :
      MMRAccumulator) w' = mmr_verify sha acc w' := by
  unfold mmr_verify
  by_cases h1 : w'.n_siblings > 0 ∧ w'.siblings = none
  · rw [if_pos h1, if_pos h1]
  · rw [if_neg h1, if_neg h1]
    by_cases h2 : w'.n_siblings > 63
    · rw [if_pos h2, if_pos h2]
    · rw [if_neg h2, if_neg h2]
      by_cases h3 : w'.path ≥ 2 ^ w'.n_siblings
      · rw [if_pos h3, if_pos h3]
      · rw [if_neg h3, if_neg h3]
        exact verifyLoop_setCache sha acc b pos w _ _ _ _ _

theorem witness_verify_state (sha : HashFn) (N : Nat) (s : MMRAccumulator)
    (hinv : AccInv sha N s) (hN : N ≤ 2 ^ 63) (e : List Nat) (he : e ≠ [])
    (hex : ∃ i, i < s.nodes.length ∧ (nodeAt s.nodes i).hash = sha e) :
    ∃ w s2, mmr_witness sha s e = some (w, s2) ∧
      mmr_verify sha s w = true ∧ mmr_verify sha s2 w = true := by
  obtain ⟨i, hi, hih⟩ := hex
  obtain ⟨pos, hget, hposlt, hposhash, hposnode⟩ :=
    mmr_tr_get_found s hinv.tr (sha e) i hi hih
  have hsz0 : 2 ^ 0 ≤ (nodeAt s.nodes
      ((bucketAt s.tracker (trIndex (sha e) s.tracker.items.length)).getD pos
        dItem).node).n_leaves := by
    simpa using size_pos sha s hinv.toBaseInv _ hposnode
  obtain ⟨lf, pf, sf, r, hwalk, -, hlensf, hpf, -, -, hr, hrp, hfold, hszr⟩ :=
    witnessWalk_spec sha N s hinv hN (s.nodes.length + 1) _ 0 0 [] (by omega)
      hposnode (by simp) rfl hsz0
  refine ⟨⟨sha e, if lf = 0 then none else some sf, lf, pf⟩,
    ⟨s.nodes, s.head, setCache s.tracker
      (trIndex (sha e) s.tracker.items.length) pos
      ⟨sha e, if lf = 0 then none else some sf, lf, pf⟩⟩, ?_, ?_, ?_⟩
  · unfold mmr_witness
    rw [if_neg he]
    dsimp only
    rw [hget]
    dsimp only
    rw [hwalk]
  · have hroot : mmr_tr_has_root s (nodeAt s.nodes r).hash = true :=
      (has_root_iff s hinv.tr _).mpr ⟨r, hr, hrp, rfl⟩
    have hlf63 : lf ≤ 63 := by
      have hle := size_le_total sha N s hinv s.nodes.length r (by omega) hr
      rw [hszr] at hle
      have h2 : 2 ^ lf * 1 ≤ 2 ^ lf *
          (nodeAt s.nodes ((bucketAt s.tracker
            (trIndex (sha e) s.tracker.items.length)).getD pos
              dItem).node).n_leaves :=
        Nat.mul_le_mul_left _ (by simpa using hsz0)
      have h1 : 2 ^ lf ≤ 2 ^ 63 := by
        simp only [Nat.sub_zero] at hle
        omega
      exact (Nat.pow_le_pow_iff_right (by omega)).mp h1
    unfold mmr_verify
    rw [if_neg (by
      rintro ⟨h1, h2⟩
      simp only at h1 h2
      rw [if_neg (by omega)] at h2
      exact Option.noConfusion h2)]
    rw [if_neg (by simp only; omega)]
    rw [if_neg (by simp only; omega)]
    apply verifyLoop_of_final
    simp only
    by_cases hlf : lf = 0
    · subst hlf
      have hjr : (nodeAt s.nodes ((bucketAt s.tracker
          (trIndex (sha e) s.tracker.items.length)).getD pos dItem).node).hash =
          (nodeAt s.nodes r).hash := by
        simpa using hfold
      show mmr_tr_has_root s (sha e) = true
      rw [← hposhash, hjr]
      exact hroot
    · rw [if_neg hlf]
      simp only [Option.getD_some]
      have hfold2 : foldFrom sha sf pf 0 lf (sha e) = (nodeAt s.nodes r).hash := by
        rw [← hposhash]
        simpa using hfold
      rw [hfold2]
      exact hroot
  · rw [mmr_verify_setCache]
    have hroot : mmr_tr_has_root s (nodeAt s.nodes r).hash = true :=
      (has_root_iff s hinv.tr _).mpr ⟨r, hr, hrp, rfl⟩
    have hlf63 : lf ≤ 63 := by
      have hle := size_le_total sha N s hinv s.nodes.length r (by omega) hr
      rw [hszr] at hle
      have h2 : 2 ^ lf * 1 ≤ 2 ^ lf *
          (nodeAt s.nodes ((bucketAt s.tracker
            (trIndex (sha e) s.tracker.items.length)).getD pos
              dItem).node).n_leaves :=
        Nat.mul_le_mul_left _ (by simpa using hsz0)
      have h1 : 2 ^ lf ≤ 2 ^ 63 := by
        simp only [Nat.sub_zero] at hle
        omega
      exact (Nat.pow_le_pow_iff_right (by omega)).mp h1
    unfold mmr_verify
    rw [if_neg (by
      rintro ⟨h1, h2⟩
      simp only at h1 h2
      rw [if_neg (by omega)] at h2
      exact Option.noConfusion h2)]
    rw [if_neg (by simp only; omega)]
    rw [if_neg (by simp only; omega)]
    apply verifyLoop_of_final
    simp only
    by_cases hlf : lf = 0
    · subst hlf
      have hjr : (nodeAt s.nodes ((bucketAt s.tracker
          (trIndex (sha e) s.tracker.items.length)).getD pos dItem).node).hash =
          (nodeAt s.nodes r).hash := by
        simpa using hfold
      show mmr_tr_has_root s (sha e) = true
      rw [← hposhash, hjr]
      exact hroot
    · rw [if_neg hlf]
      simp only [Option.getD_some]
      have hfold2 : foldFrom sha sf pf 0 lf (sha e) = (nodeAt s.nodes r).hash := by
        rw [← hposhash]
        simpa using hfold
      rw [hfold2]
      exact hroot

theorem witness_notfound_state (sha : HashFn) (s : MMRAccumulator)
    (hinv : TrInv s.nodes s.tracker) (e : List Nat)
    (hnot : ∀ i, i < s.nodes.length → (nodeAt s.nodes i).hash ≠ sha e) :
    mmr_witness sha s e = none := by
  unfold mmr_witness
  by_cases he : e = []
  · rw [if_pos he]
  · rw [if_neg he]
    have hget : mmr_tr_get s.nodes s.tracker (sha e) = none := by
      unfold mmr_tr_get
      rcases hfind : (bucketAt s.tracker
          (trIndex (sha e) s.tracker.items.length)).findIdx?
          (fun it => decide ((nodeAt s.nodes it.node).hash = sha e)) with _ | pos
      · simp only
        rw [hfind]
      · exfalso
        obtain ⟨-, hlt, hpred⟩ := findIdx?_some_spec dItem _ _ 0 _ hfind
        simp only [Nat.sub_zero, decide_eq_true_eq] at hlt hpred
        have hmem := getD_mem_of_lt _ pos dItem hlt
        have hn := (hinv.bucketNode _ (trIndex_lt (sha e) _ hinv.capPos) _ hmem).1
        exact hnot _ hn hpred
    dsimp only
    rw [hget]

theorem getD_node_eq_of_map_eq (l1 l2 : List MMRItem) (pos : Nat)
    (h : l1.map (fun it => it.node) = l2.map (fun it => it.node)) :
    (l1.getD pos dItem).node = (l2.getD pos dItem).node := by
  have h2 : (l1.map (fun it => it.node))[pos]? = (l2.map (fun it => it.node))[pos]? := by
    rw [h]
  rw [List.getElem?_map, List.getElem?_map] at h2
  rw [List.getD_eq_getElem?_getD, List.getD_eq_getElem?_getD]
  rcases ha : l1[pos]? with _ | a <;> rcases hb : l2[pos]? with _ | b <;>
    rw [ha, hb] at h2 <;> simp at h2 ⊢
  exact h2

theorem mmr_tr_get_setCache (nodes : List MMRNode) (t : MMRTracker)
    (b pos : Nat) (w : MMRWitness) (h : Digest) :
    mmr_tr_get nodes (setCache t b pos w) h = mmr_tr_get nodes t h := by
  unfold mmr_tr_get
  rw [setCache_items_length]
  have hmap : (bucketAt (setCache t b pos w) (trIndex h t.items.length)).map
      (fun it => decide ((nodeAt nodes it.node).hash = h)) =
      (bucketAt t (trIndex h t.items.length)).map
        (fun it => decide ((nodeAt nodes it.node).hash = h)) := by
    have hnode := bucketAt_setCache_map_node t b pos w (trIndex h t.items.length)
    calc (bucketAt (setCache t b pos w) (trIndex h t.items.length)).map
          (fun it => decide ((nodeAt nodes it.node).hash = h))
        = ((bucketAt (setCache t b pos w) (trIndex h t.items.length)).map
            (fun it => it.node)).map
            (fun n => decide ((nodeAt nodes n).hash = h)) := by
          rw [List.map_map]
          rfl
      _ = ((bucketAt t (trIndex h t.items.length)).map (fun it => it.node)).map
            (fun n => decide ((nodeAt nodes n).hash = h)) := by rw [hnode]
      _ = (bucketAt t (trIndex h t.items.length)).map
            (fun it => decide ((nodeAt nodes it.node).hash = h)) := by
          rw [List.map_map]
          rfl
  dsimp only
  rw [findIdx?_congr _ _ _ 0 hmap]

theorem witness_deterministic_aux (sha : HashFn) (s : MMRAccumulator)
    (e : List Nat) (w : MMRWitness) (s1 : MMRAccumulator)
    (h : mmr_witness sha s e = some (w, s1)) :
    ∃ s2, mmr_witness sha s1 e = some (w, s2) := by
  unfold mmr_witness at h
  by_cases he : e = []
  · rw [if_pos he] at h
    exact Option.noConfusion h
  · rw [if_neg he] at h
    dsimp only at h
    rcases hget : mmr_tr_get s.nodes s.tracker (sha e) with _ | ⟨b, pos⟩
    · rw [hget] at h
      exact Option.noConfusion h
    · rw [hget] at h
      dsimp only at h
      rcases hwalk : witnessWalk s.nodes (s.nodes.length + 1)
          ((bucketAt s.tracker b).getD pos dItem).node 0 0 [] with
        _ | ⟨level, path, sibs⟩
      · rw [hwalk] at h
        exact Option.noConfusion h
      · rw [hwalk] at h
        dsimp only at h
        have h2 := Option.some.inj h
        have hw : (⟨sha e, if level = 0 then none else some sibs, level, path⟩ :
            MMRWitness) = w := congrArg Prod.fst h2
        have hs1 : (⟨s.nodes, s.head, setCache s.tracker b pos
            ⟨sha e, if level = 0 then none else some sibs, level, path⟩⟩ :
            MMRAccumulator) = s1 := congrArg Prod.snd h2
        subst hs1
        unfold mmr_witness
        rw [if_neg he]
        dsimp only
        rw [mmr_tr_get_setCache s.nodes s.tracker b pos _ (sha e), hget]
        dsimp only
        have hnodeeq : ((bucketAt (setCache s.tracker b pos
            ⟨sha e, if level = 0 then none else some sibs, level, path⟩) b).getD
              pos dItem).node =
            ((bucketAt s.tracker b).getD pos dItem).node :=
          getD_node_eq_of_map_eq _ _ pos (bucketAt_setCache_map_node _ b pos _ b)
        rw [hnodeeq, hwalk]
        dsimp only
        rw [hw]
        exact ⟨_, rfl⟩

theorem mmr_add_nonempty (sha : HashFn) (s : MMRAccumulator) (e : List Nat)
    (o : List Bool) (s' : MMRAccumulator) (o' : List Bool)
    (h : mmr_add sha s e o = (true, s', o')) : e ≠ [] := by
  intro he
  unfold mmr_add at h
  rw [if_pos he] at h
  exact absurd (congrArg Prod.fst h) (by simp)

theorem foldl_addStep_nonempty (sha : HashFn) :
    ∀ (steps : List (List Nat × List Bool)) (b0 : Bool) (s0 : MMRAccumulator),
      (List.foldl (addStep sha) (b0, s0) steps).1 = true →
      ∀ st ∈ steps, st.1 ≠ [] := by
  intro steps
  induction steps with
  | nil => intro b0 s0 _ st hst; simp at hst
  | cons st sts ih =>
    intro b0 s0 h st2 hst2
    rw [List.foldl_cons] at h
    rcases hadd : mmr_add sha s0 st.1 st.2 with ⟨badd, s1, o1⟩
    have hstep : addStep sha (b0, s0) st = (b0 && badd, s1) := by
      unfold addStep
      rw [hadd]
    rw [hstep] at h
    rcases List.mem_cons.mp hst2 with rfl | hst2
    · have hband := foldl_addStep_flag sha sts _ _ h
      simp only [Bool.and_eq_true] at hband
      rw [hband.2] at hadd
      exact mmr_add_nonempty sha s0 st2.1 st2.2 s1 o1 hadd
    · exact ih _ _ h st2 hst2

theorem has_root_iff_tracked (s : MMRAccumulator)
    (hinv : TrInv s.nodes s.tracker) (h : Digest) :
    mmr_tr_has_root s h = true ↔
      ∃ b, b < s.tracker.items.length ∧ ∃ it ∈ bucketAt s.tracker b,
        (nodeAt s.nodes it.node).parent = none ∧
        (nodeAt s.nodes it.node).hash = h := by
  unfold mmr_tr_has_root
  rw [List.any_eq_true]
  constructor
  · rintro ⟨it, hit, hp⟩
    simp only [decide_eq_true_eq] at hp
    exact ⟨trIndex h s.tracker.items.length, trIndex_lt h _ hinv.capPos, it, hit, hp⟩
  · rintro ⟨b, hb, it, hit, hpar, hhash⟩
    obtain ⟨hn, hbk⟩ := hinv.bucketNode b hb it hit
    refine ⟨it, ?_, by simp [hpar, hhash]⟩
    rw [← hbk] at hit
    rw [← hhash]
    exact hit

/-- C5 (amended): after every completed insert the tracker satisfies
`count ≤ capacity * 0.75 + 1` (not `count ≤ capacity * 0.75`): the resize
check precedes the count increment, so the capacity doubles exactly when the
**pre**-insert count exceeds 0.75 of the capacity, and on such a resize every
existing entry is rehashed into the bucket computed from its node's digest
against the doubled capacity before the insert completes. -/
theorem claim_C5_amended (nodes : List MMRNode) (t : MMRTracker) (h : Digest)
    (idx : Nat) (o o' : List Bool) (t' : MMRTracker)
    (hcap : 2 ≤ t.items.length) (hload : 4 * t.count ≤ 3 * t.items.length + 4)
    (hins : mmr_tr_insert nodes t h idx o = (true, t', o')) :
    4 * t'.count ≤ 3 * t'.items.length + 4 ∧
    t'.items.length = (if 4 * t.count ≤ 3 * t.items.length then t.items.length
      else 2 * t.items.length) ∧
    t.count ≤ t'.count ∧ t'.count ≤ t.count + 1 ∧
    (¬ 4 * t.count ≤ 3 * t.items.length →
      ∀ b it, it ∈ bucketAt (mmr_tr_resize nodes t []).2.1 b ↔
        ((∃ bk ∈ t.items, it ∈ bk) ∧
          trIndex (nodeAt nodes it.node).hash (2 * t.items.length) = b)) := by
  have hcapne : t.items.length ≠ 0 := by omega
  unfold mmr_tr_insert at hins
  rw [if_neg hcapne] at hins
  rcases hres : mmr_tr_resize nodes t o with ⟨okR, tR, oR⟩
  rw [hres] at hins
  cases okR with
  | false => exact absurd (congrArg Prod.fst hins) (by simp)
  | true =>
    dsimp only at hins
    by_cases hneed : 4 * t.count ≤ 3 * t.items.length
    · rw [resize_not_needed nodes t o hcapne hneed] at hres
      have htR : t = tR := congrArg (fun q => q.2.1) hres
      subst htR
      by_cases hptr : mmr_tr_has_ptr t h idx = true
      · rw [if_pos hptr] at hins
        have ht' : t = t' := congrArg (fun q => q.2.1) hins
        subst ht'
        exact ⟨hload, by rw [if_pos hneed], Nat.le_refl _, by omega,
          fun hc => absurd hneed hc⟩
      · rw [if_neg hptr] at hins
        rcases hok : allocOk oR with ⟨ok, o2⟩
        rw [hok] at hins
        cases ok with
        | false => exact absurd (congrArg Prod.fst hins) (by simp)
        | true =>
          dsimp only at hins
          have ht' : (⟨t.items.set (trIndex h t.items.length)
              (⟨idx, none⟩ :: bucketAt t (trIndex h t.items.length)),
              t.count + 1⟩ : MMRTracker) = t' :=
            congrArg (fun q => q.2.1) hins
          rw [← ht']
          simp only [List.length_set]
          exact ⟨by omega, by rw [if_pos hneed], by omega, by omega,
            fun hc => absurd hneed hc⟩
    · obtain ⟨hlenR, hcntR, hmemR⟩ := resize_mem nodes t tR o oR hcapne hneed hres
      have hres0 : mmr_tr_resize nodes t [] =
          (true, ⟨rehashInto nodes (List.replicate (2 * t.items.length) [])
            t.items, t.count⟩, []) := by
        unfold mmr_tr_resize
        rw [if_neg hcapne, if_neg hneed]
        rfl
      have hrehash : ∀ b it, it ∈ bucketAt (mmr_tr_resize nodes t []).2.1 b ↔
          ((∃ bk ∈ t.items, it ∈ bk) ∧
            trIndex (nodeAt nodes it.node).hash (2 * t.items.length) = b) := by
        obtain ⟨-, -, hmem0⟩ := resize_mem nodes t _ [] [] hcapne hneed hres0
        intro b it
        rw [hres0]
        exact hmem0 b it
      by_cases hptr : mmr_tr_has_ptr tR h idx = true
      · rw [if_pos hptr] at hins
        have ht' : tR = t' := congrArg (fun q => q.2.1) hins
        rw [← ht', hlenR, hcntR]
        exact ⟨by omega, by rw [if_neg hneed], Nat.le_refl _, by omega,
          fun _ => hrehash⟩
      · rw [if_neg hptr] at hins
        rcases hok : allocOk oR with ⟨ok, o2⟩
        rw [hok] at hins
        cases ok with
        | false => exact absurd (congrArg Prod.fst hins) (by simp)
        | true =>
          dsimp only at hins
          have ht' : (⟨tR.items.set (trIndex h tR.items.length)
              (⟨idx, none⟩ :: bucketAt tR (trIndex h tR.items.length)),
              tR.count + 1⟩ : MMRTracker) = t' :=
            congrArg (fun q => q.2.1) hins
          rw [← ht']
          simp only [List.length_set]
          rw [hlenR, hcntR]
          exact ⟨by omega, by rw [if_neg hneed], by omega, by omega,
            fun _ => hrehash⟩

/-- C2: every element successfully added stays provable: for any run of
`mmr_add` calls that all succeed (of length at most `2^63`), each added
element admits a witness against the resulting state, and the returned proof
verifies both against the state the witness call was made on and against the
state it returns — in particular immediately after the element's own add
(take the run up to that add) and after any number of further successful
adds (extend the run). -/
theorem claim_C2_witness_verify (sha : HashFn)
    (steps : List (List Nat × List Bool))
    (hok : (addSeq sha steps).1 = true) (hlen : steps.length ≤ 2 ^ 63)
    (e : List Nat) (o : List Bool) (hmem : (e, o) ∈ steps) :
    ∃ w s2, mmr_witness sha (addSeq sha steps).2 e = some (w, s2) ∧
      mmr_verify sha (addSeq sha steps).2 w = true ∧
      mmr_verify sha s2 w = true := by
  obtain ⟨hinv, hex⟩ := addSeq_spec sha steps hok
  have hok' : (List.foldl (addStep sha) (true, mmrInit) steps).1 = true := hok
  have hne : e ≠ [] :=
    foldl_addStep_nonempty sha steps true mmrInit hok' (e, o) hmem
  exact witness_verify_state sha steps.length _ hinv hlen e hne (hex (e, o) hmem)

theorem claim_C2_witness_verify_inst :
    ∃ w s2, mmr_witness toySha (addSeq toySha [([1], []), ([2], [])]).2 [1]
        = some (w, s2) ∧
      mmr_verify toySha (addSeq toySha [([1], []), ([2], [])]).2 w = true ∧
      mmr_verify toySha s2 w = true :=
  claim_C2_witness_verify toySha [([1], []), ([2], [])] (by decide) (by decide)
    [1] [] (by decide)

/-- C6: `mmr_verify` rejects, for every accumulator state, any witness whose
declared height exceeds 63, or whose path is at least `2 ^ height`, or whose
siblings array is absent while the height is positive. -/
theorem claim_C6_verify_rejects (sha : HashFn) (acc : MMRAccumulator)
    (w : MMRWitness)
    (h : w.n_siblings > 63 ∨ w.path ≥ 2 ^ w.n_siblings ∨
      (w.siblings = none ∧ 0 < w.n_siblings)) :
    mmr_verify sha acc w = false := by
  unfold mmr_verify
  by_cases h1 : w.n_siblings > 0 ∧ w.siblings = none
  · rw [if_pos h1]
  · rw [if_neg h1]
    by_cases h2 : w.n_siblings > 63
    · rw [if_pos h2]
    · rw [if_neg h2]
      by_cases h3 : w.path ≥ 2 ^ w.n_siblings
      · rw [if_pos h3]
      · rcases h with h | h | h
        · exact absurd h h2
        · exact absurd h h3
        · exact absurd ⟨h.2, h.1⟩ h1

theorem claim_C6_verify_rejects_inst :
    mmr_verify toySha mmrInit ⟨[7], none, 64, 0⟩ = false :=
  claim_C6_verify_rejects toySha mmrInit ⟨[7], none, 64, 0⟩ (Or.inl (by decide))

/-- C7: for every state whose tracker registers no item whose node carries
the element's leaf digest, `mmr_witness` returns the not-found failure
(`none`), producing no proof. -/
theorem claim_C7_witness_notfound (sha : HashFn) (s : MMRAccumulator)
    (hinv : TrInv s.nodes s.tracker) (e : List Nat)
    (hnot : ∀ b < s.tracker.items.length, ∀ it ∈ bucketAt s.tracker b,
      (nodeAt s.nodes it.node).hash ≠ sha e) :
    mmr_witness sha s e = none := by
  refine witness_notfound_state sha s hinv e ?_
  intro i hi hhash
  obtain ⟨it, hit, hnode⟩ := hinv.tracked i hi
  exact hnot _ (trIndex_lt _ _ hinv.capPos) it hit (by rw [hnode, hhash])

theorem claim_C7_witness_notfound_inst :
    mmr_witness toySha (addSeq toySha [([1], [])]).2 [2] = none :=
  claim_C7_witness_notfound toySha (addSeq toySha [([1], [])]).2
    ((addSeq_spec toySha [([1], [])] (by decide)).1.toBaseInv.tr) [2] (by decide)

/-- C9: a height-0 witness verifies iff its path is 0 and some tracked
parentless node carries its leaf digest; in particular every height-0
witness with a nonzero path is rejected. -/
theorem claim_C9_height_zero (sha : HashFn) (s : MMRAccumulator)
    (hinv : TrInv s.nodes s.tracker) (h : Digest) (sibs : Option (List Digest))
    (p : Nat) :
    mmr_verify sha s ⟨h, sibs, 0, p⟩ = true ↔
      (p = 0 ∧ ∃ b, b < s.tracker.items.length ∧ ∃ it ∈ bucketAt s.tracker b,
        (nodeAt s.nodes it.node).parent = none ∧
        (nodeAt s.nodes it.node).hash = h) := by
  by_cases hp : p = 0
  · subst hp
    unfold mmr_verify
    dsimp only
    rw [if_neg (by simp), if_neg (by norm_num), if_neg (by norm_num)]
    show mmr_tr_has_root s h = true ↔ _
    rw [has_root_iff_tracked s hinv h]
    simp
  · unfold mmr_verify
    dsimp only
    rw [if_neg (by simp), if_neg (by norm_num),
        if_pos (by show p ≥ 2 ^ 0; omega)]
    simp [hp]

theorem claim_C9_height_zero_inst :
    mmr_verify toySha (addSeq toySha [([1], [])]).2
        ⟨toySha [1], none, 0, 0⟩ = true ↔
      (0 = 0 ∧ ∃ b, b < (addSeq toySha [([1], [])]).2.tracker.items.length ∧
        ∃ it ∈ bucketAt (addSeq toySha [([1], [])]).2.tracker b,
          (nodeAt (addSeq toySha [([1], [])]).2.nodes it.node).parent = none ∧
          (nodeAt (addSeq toySha [([1], [])]).2.nodes it.node).hash =
            toySha [1]) :=
  claim_C9_height_zero toySha (addSeq toySha [([1], [])]).2
    ((addSeq_spec toySha [([1], [])] (by decide)).1.toBaseInv.tr)
    (toySha [1]) none 0

/-- C10: `mmr_witness` is deterministic: querying the same element again on
the state returned by a first successful query (the only mutation of a
witness call being the write-only proof cache) yields an identical proof —
the same record, hence equal leaf digest, sibling list, height and path. -/
theorem claim_C10_witness_deterministic (sha : HashFn) (s : MMRAccumulator)
    (e : List Nat) (w1 w2 : MMRWitness) (s1 s2 : MMRAccumulator)
    (h1 : mmr_witness sha s e = some (w1, s1))
    (h2 : mmr_witness sha s1 e = some (w2, s2)) :
    w2 = w1 ∧ w2.hash = w1.hash ∧ w2.siblings = w1.siblings ∧
    w2.n_siblings = w1.n_siblings ∧ w2.path = w1.path := by
  obtain ⟨s2', h2'⟩ := witness_deterministic_aux sha s e w1 s1 h1
  rw [h2'] at h2
  injection h2 with hpair
  have hw : w1 = w2 := congrArg Prod.fst hpair
  exact ⟨hw.symm, by rw [hw], by rw [hw], by rw [hw], by rw [hw]⟩

theorem claim_C10_witness_deterministic_inst :
    ((mmr_witness toySha ((mmr_witness toySha
        (addSeq toySha [([1], []), ([2], [])]).2 [1]).getD
          (⟨[], none, 0, 0⟩, mmrInit)).2 [1]).getD
        (⟨[], none, 0, 0⟩, mmrInit)).1 =
      ((mmr_witness toySha (addSeq toySha [([1], []), ([2], [])]).2 [1]).getD
        (⟨[], none, 0, 0⟩, mmrInit)).1 :=
  (claim_C10_witness_deterministic toySha
    (addSeq toySha [([1], []), ([2], [])]).2 [1]
    ((mmr_witness toySha (addSeq toySha [([1], []), ([2], [])]).2 [1]).getD
      (⟨[], none, 0, 0⟩, mmrInit)).1
    ((mmr_witness toySha ((mmr_witness toySha
        (addSeq toySha [([1], []), ([2], [])]).2 [1]).getD
          (⟨[], none, 0, 0⟩, mmrInit)).2 [1]).getD
        (⟨[], none, 0, 0⟩, mmrInit)).1
    ((mmr_witness toySha (addSeq toySha [([1], []), ([2], [])]).2 [1]).getD
      (⟨[], none, 0, 0⟩, mmrInit)).2
    ((mmr_witness toySha ((mmr_witness toySha
        (addSeq toySha [([1], []), ([2], [])]).2 [1]).getD
          (⟨[], none, 0, 0⟩, mmrInit)).2 [1]).getD
        (⟨[], none, 0, 0⟩, mmrInit)).2
    (by rfl) (by rfl)).1

/-- C3 (counterexample): after 3 successful adds the root list order is
size 1 then size 2 — strictly **increasing** `n_leaves` from the list head,
refuting the claimed strictly decreasing order. -/
theorem claim_C3_counterexample :
    rootSizes (addSeq toySha [([1], []), ([2], []), ([3], [])]).2 = [1, 2] ∧
    ¬ List.Pairwise (fun a b => a > b)
      (rootSizes (addSeq toySha [([1], []), ([2], []), ([3], [])]).2) := by
  constructor
  · decide
  · intro hpw
    have h12 : (1 : Nat) > 2 := by
      have he : rootSizes (addSeq toySha
          [([1], []), ([2], []), ([3], [])]).2 = [1, 2] := by decide
      rw [he] at hpw
      exact (List.pairwise_cons.mp hpw).1 2 (List.mem_singleton.mpr rfl)
    omega

/-- C3 (amended): after `N` successful adds the root list contains exactly
the parentless nodes, in strictly **increasing** (not decreasing)
`n_leaves` order from the list head; each root size is therefore unique, and
the root sizes are exactly the powers of two of the set bits of `N`'s binary
representation (in ascending order). -/
theorem claim_C3_amended (sha : HashFn) (steps : List (List Nat × List Bool))
    (hok : (addSeq sha steps).1 = true) :
    (∀ i < (addSeq sha steps).2.nodes.length,
      ((nodeAt (addSeq sha steps).2.nodes i).parent = none ↔
        i ∈ rootChain (addSeq sha steps).2)) ∧
    List.Pairwise (fun a b => a < b) (rootSizes (addSeq sha steps).2) ∧
    rootSizes (addSeq sha steps).2 = binDecompAsc steps.length ∧
    (∀ x, x ∈ rootSizes (addSeq sha steps).2 ↔
      ∃ j, Nat.testBit steps.length j ∧ x = 2 ^ j) := by
  obtain ⟨hinv, -⟩ := addSeq_spec sha steps hok
  refine ⟨hinv.chainRoot, ?_, hinv.sizesEq, ?_⟩
  · rw [hinv.sizesEq]
    exact binDecompAsc_pairwise steps.length
  · intro x
    rw [hinv.sizesEq]
    exact mem_binDecompAsc steps.length x

theorem claim_C3_amended_inst :
    (∀ i < (addSeq toySha [([1], []), ([2], []), ([3], [])]).2.nodes.length,
      ((nodeAt (addSeq toySha
          [([1], []), ([2], []), ([3], [])]).2.nodes i).parent = none ↔
        i ∈ rootChain (addSeq toySha [([1], []), ([2], []), ([3], [])]).2)) ∧
    List.Pairwise (fun a b => a < b)
      (rootSizes (addSeq toySha [([1], []), ([2], []), ([3], [])]).2) ∧
    rootSizes (addSeq toySha [([1], []), ([2], []), ([3], [])]).2 =
      binDecompAsc 3 ∧
    (∀ x, x ∈ rootSizes (addSeq toySha
        [([1], []), ([2], []), ([3], [])]).2 ↔
      ∃ j, Nat.testBit 3 j ∧ x = 2 ^ j) :=
  claim_C3_amended toySha [([1], []), ([2], []), ([3], [])] (by decide)

/-- C8: `merge_nodes` fails (and leaves the state unchanged) whenever the
two trees' `n_leaves` differ; on success the fresh parent sits at the next
arena index, carries the pair hash of the children's digests and twice the
left child's `n_leaves`, links to both children, is itself parentless, and
is registered in the tracker; both children get their parent pointer set to
it and their root-list `next` link cleared, all their other fields are
preserved, and they stay in the (grown) arena and tracked. -/
theorem claim_C8_merge_spec (sha : HashFn) (s : MMRAccumulator) (l r : Nat)
    (o : List Bool) (hinv : TrInv s.nodes s.tracker)
    (hl : l < s.nodes.length) (hr : r < s.nodes.length) (hlr : l ≠ r) :
    ((nodeAt s.nodes l).n_leaves ≠ (nodeAt s.nodes r).n_leaves →
      (merge_nodes sha s l r o).1 = none ∧ (merge_nodes sha s l r o).2.1 = s) ∧
    (∀ p s' o', merge_nodes sha s l r o = (some p, s', o') →
      p = s.nodes.length ∧
      s'.nodes.length = s.nodes.length + 1 ∧
      (nodeAt s'.nodes p).hash =
        merkleHash sha (nodeAt s.nodes l).hash (nodeAt s.nodes r).hash ∧
      (nodeAt s'.nodes p).n_leaves = 2 * (nodeAt s.nodes l).n_leaves ∧
      (nodeAt s'.nodes p).left = some l ∧
      (nodeAt s'.nodes p).right = some r ∧
      (nodeAt s'.nodes p).parent = none ∧
      (nodeAt s'.nodes l).parent = some p ∧
      (nodeAt s'.nodes r).parent = some p ∧
      (nodeAt s'.nodes l).next = none ∧
      (nodeAt s'.nodes r).next = none ∧
      (nodeAt s'.nodes l).hash = (nodeAt s.nodes l).hash ∧
      (nodeAt s'.nodes r).hash = (nodeAt s.nodes r).hash ∧
      (nodeAt s'.nodes l).n_leaves = (nodeAt s.nodes l).n_leaves ∧
      (nodeAt s'.nodes r).n_leaves = (nodeAt s.nodes r).n_leaves ∧
      (nodeAt s'.nodes l).left = (nodeAt s.nodes l).left ∧
      (nodeAt s'.nodes l).right = (nodeAt s.nodes l).right ∧
      (nodeAt s'.nodes r).left = (nodeAt s.nodes r).left ∧
      (nodeAt s'.nodes r).right = (nodeAt s.nodes r).right ∧
      TrInv s'.nodes s'.tracker) := by
  constructor
  · intro hsz
    unfold merge_nodes
    rw [if_pos hsz]
    exact ⟨rfl, rfl⟩
  · intro p s' o' hmerge
    obtain ⟨hsz, hp, t', o1, hins, hs'⟩ :=
      merge_nodes_some sha s l r o p s' o' hmerge
    have hnew := nodeAt_merged_new sha s.nodes l r hl hr
    have hleft := nodeAt_merged_left sha s.nodes l r hl hlr
    have hright := nodeAt_merged_right sha s.nodes l r hr
    have hTrApp : TrInv (s.nodes ++
        [⟨merkleHash sha (nodeAt s.nodes l).hash (nodeAt s.nodes r).hash,
          2 * (nodeAt s.nodes l).n_leaves, none, some l, some r, none⟩]) t' := by
      refine TrInv_insert s.nodes s.tracker t' _ o1 o' _ rfl hinv ?_
      exact hins
    have hTr' : TrInv (mergedArena sha s.nodes l r) t' := by
      refine TrInv_congr _ _ t' hTrApp
        (by simp [mergedArena_length]) ?_
      intro j hj
      simp only [List.length_append, List.length_cons, List.length_nil] at hj
      by_cases hjl : j < s.nodes.length
      · rw [nodeAt_append_lt _ _ _ hjl]
        exact merged_hash_pres sha s.nodes l r j hjl
      · have hje : j = s.nodes.length := by omega
        subst hje
        rw [nodeAt_append_self, hnew]
    subst hp
    rw [hs']
    dsimp only
    rw [hnew, hleft, hright]
    exact ⟨rfl, mergedArena_length sha s.nodes l r, rfl, rfl, rfl, rfl, rfl,
      rfl, rfl, rfl, rfl, rfl, rfl, rfl, rfl, rfl, rfl, rfl, rfl, hTr'⟩

theorem claim_C8_merge_spec_inst :
    ((nodeAt (addSeq toySha [([1], []), ([2], []), ([3], [])]).2.nodes 3).n_leaves ≠
        (nodeAt (addSeq toySha [([1], []), ([2], []), ([3], [])]).2.nodes 2).n_leaves →
      (merge_nodes toySha (addSeq toySha [([1], []), ([2], []), ([3], [])]).2
          3 2 [true]).1 = none ∧
      (merge_nodes toySha (addSeq toySha [([1], []), ([2], []), ([3], [])]).2
          3 2 [true]).2.1 = (addSeq toySha [([1], []), ([2], []), ([3], [])]).2) ∧
    (∀ p s' o', merge_nodes toySha
        (addSeq toySha [([1], []), ([2], []), ([3], [])]).2 3 2 [true] =
          (some p, s', o') →
      p = (addSeq toySha [([1], []), ([2], []), ([3], [])]).2.nodes.length ∧
      s'.nodes.length =
        (addSeq toySha [([1], []), ([2], []), ([3], [])]).2.nodes.length + 1 ∧
      (nodeAt s'.nodes p).hash = merkleHash toySha
        (nodeAt (addSeq toySha [([1], []), ([2], []), ([3], [])]).2.nodes 3).hash
        (nodeAt (addSeq toySha [([1], []), ([2], []), ([3], [])]).2.nodes 2).hash ∧
      (nodeAt s'.nodes p).n_leaves = 2 *
        (nodeAt (addSeq toySha [([1], []), ([2], []), ([3], [])]).2.nodes 3).n_leaves ∧
      (nodeAt s'.nodes p).left = some 3 ∧
      (nodeAt s'.nodes p).right = some 2 ∧
      (nodeAt s'.nodes p).parent = none ∧
      (nodeAt s'.nodes 3).parent = some p ∧
      (nodeAt s'.nodes 2).parent = some p ∧
      (nodeAt s'.nodes 3).next = none ∧
      (nodeAt s'.nodes 2).next = none ∧
      (nodeAt s'.nodes 3).hash =
        (nodeAt (addSeq toySha [([1], []), ([2], []), ([3], [])]).2.nodes 3).hash ∧
      (nodeAt s'.nodes 2).hash =
        (nodeAt (addSeq toySha [([1], []), ([2], []), ([3], [])]).2.nodes 2).hash ∧
      (nodeAt s'.nodes 3).n_leaves =
        (nodeAt (addSeq toySha [([1], []), ([2], []), ([3], [])]).2.nodes 3).n_leaves ∧
      (nodeAt s'.nodes 2).n_leaves =
        (nodeAt (addSeq toySha [([1], []), ([2], []), ([3], [])]).2.nodes 2).n_leaves ∧
      (nodeAt s'.nodes 3).left =
        (nodeAt (addSeq toySha [([1], []), ([2], []), ([3], [])]).2.nodes 3).left ∧
      (nodeAt s'.nodes 3).right =
        (nodeAt (addSeq toySha [([1], []), ([2], []), ([3], [])]).2.nodes 3).right ∧
      (nodeAt s'.nodes 2).left =
        (nodeAt (addSeq toySha [([1], []), ([2], []), ([3], [])]).2.nodes 2).left ∧
      (nodeAt s'.nodes 2).right =
        (nodeAt (addSeq toySha [([1], []), ([2], []), ([3], [])]).2.nodes 2).right ∧
      TrInv s'.nodes s'.tracker) :=
  claim_C8_merge_spec toySha (addSeq toySha [([1], []), ([2], []), ([3], [])]).2
    3 2 [true]
    ((addSeq_spec toySha [([1], []), ([2], []), ([3], [])] (by decide)).1.toBaseInv.tr)
    (by decide) (by decide) (by decide)

set_option maxRecDepth 8000 in
/-- C5 (counterexample): the load-factor check precedes the count increment,
so a completed insert can leave the tracker above the claimed bound: after
12 inserts into a fresh 16-bucket tracker the 13th insert still succeeds
without resizing, leaving `count = 13 > 16 * 0.75 = 12`. -/
theorem claim_C5_counterexample :
    (mmr_tr_insert []
        ((List.range 12).foldl (fun t k => (mmr_tr_insert [] t [k] k []).2.1)
          (MMRTracker.mk (List.replicate 16 []) 0)) [12] 12 []).1 = true ∧
    (mmr_tr_insert []
        ((List.range 12).foldl (fun t k => (mmr_tr_insert [] t [k] k []).2.1)
          (MMRTracker.mk (List.replicate 16 []) 0)) [12] 12 []).2.1.count = 13 ∧
    (mmr_tr_insert []
        ((List.range 12).foldl (fun t k => (mmr_tr_insert [] t [k] k []).2.1)
          (MMRTracker.mk (List.replicate 16 []) 0))
        [12] 12 []).2.1.items.length = 16 ∧
    ¬ (4 * (mmr_tr_insert []
        ((List.range 12).foldl (fun t k => (mmr_tr_insert [] t [k] k []).2.1)
          (MMRTracker.mk (List.replicate 16 []) 0)) [12] 12 []).2.1.count ≤
      3 * (mmr_tr_insert []
        ((List.range 12).foldl (fun t k => (mmr_tr_insert [] t [k] k []).2.1)
          (MMRTracker.mk (List.replicate 16 []) 0))
        [12] 12 []).2.1.items.length) := by
  decide

theorem claim_C5_amended_inst :
    4 * (mmr_tr_insert [] (MMRTracker.mk (List.replicate 16 []) 0)
        [5] 0 []).2.1.count ≤
      3 * (mmr_tr_insert [] (MMRTracker.mk (List.replicate 16 []) 0)
        [5] 0 []).2.1.items.length + 4 ∧
    (mmr_tr_insert [] (MMRTracker.mk (List.replicate 16 []) 0)
        [5] 0 []).2.1.items.length =
      (if 4 * (MMRTracker.mk (List.replicate 16 []) 0).count ≤
          3 * (MMRTracker.mk (List.replicate 16 []) 0).items.length then
        (MMRTracker.mk (List.replicate 16 []) 0).items.length
      else 2 * (MMRTracker.mk (List.replicate 16 []) 0).items.length) ∧
    (MMRTracker.mk (List.replicate 16 []) 0).count ≤
      (mmr_tr_insert [] (MMRTracker.mk (List.replicate 16 []) 0)
        [5] 0 []).2.1.count ∧
    (mmr_tr_insert [] (MMRTracker.mk (List.replicate 16 []) 0)
        [5] 0 []).2.1.count ≤
      (MMRTracker.mk (List.replicate 16 []) 0).count + 1 ∧
    (¬ 4 * (MMRTracker.mk (List.replicate 16 []) 0).count ≤
        3 * (MMRTracker.mk (List.replicate 16 []) 0).items.length →
      ∀ b it, it ∈ bucketAt
          (mmr_tr_resize [] (MMRTracker.mk (List.replicate 16 []) 0) []).2.1 b ↔
        ((∃ bk ∈ (MMRTracker.mk (List.replicate 16 []) 0).items, it ∈ bk) ∧
          trIndex (nodeAt [] it.node).hash
            (2 * (MMRTracker.mk (List.replicate 16 []) 0).items.length) = b)) :=
  claim_C5_amended [] (MMRTracker.mk (List.replicate 16 []) 0) [5] 0 []
    (mmr_tr_insert [] (MMRTracker.mk (List.replicate 16 []) 0) [5] 0 []).2.2
    (mmr_tr_insert [] (MMRTracker.mk (List.replicate 16 []) 0) [5] 0 []).2.1
    (by decide) (by decide) (by rfl)

/-- C1 (divergence): the reconstruction loop of C `mmr_verify` returns
valid as soon as an intermediate folded digest matches a current root, with
siblings still unconsumed, while the specification's acceptance — the final
folded digest alone compared against the roots, `specVerify` — rejects the
same witness in the same state.  State: two adds; witness: the first leaf's
digest with the true sibling followed by a junk digest and the height
overstated as 2 (the intermediate digest after one fold step is the current
root). -/
theorem claim_C1_early_exit_divergence :
    mmr_verify toySha (addSeq toySha [([1], []), ([2], [])]).2
      ⟨toySha [1], some [toySha [2], [99]], 2, 1⟩ = true ∧
    specVerify toySha (addSeq toySha [([1], []), ([2], [])]).2
      ⟨toySha [1], some [toySha [2], [99]], 2, 1⟩ = false := by
  decide

/-- C4 (divergence): a failed `mmr_add` can leave the accumulator
half-mutated.  With one element already present, adding a second under an
allocation oracle that exhausts at the parent-node allocation makes the add
fail, yet the new leaf is already in the arena and registered in the
tracker: the state differs from the pre-add state, the leaf is parentless
but absent from the root list, and `mmr_tr_has_root` already answers true
for its digest even though it is not a root-list entry — neither the
unchanged nor the fully-updated state. -/
theorem claim_C4_partial_mutation :
    (mmr_add toySha (addSeq toySha [([1], [])]).2 [2]
      [true, true, false]).1 = false ∧
    (mmr_add toySha (addSeq toySha [([1], [])]).2 [2]
      [true, true, false]).2.1.nodes.length = 2 ∧
    (nodeAt (mmr_add toySha (addSeq toySha [([1], [])]).2 [2]
      [true, true, false]).2.1.nodes 1).parent = none ∧
    (1 : Nat) ∉ rootChain (mmr_add toySha (addSeq toySha [([1], [])]).2 [2]
      [true, true, false]).2.1 ∧
    (mmr_add toySha (addSeq toySha [([1], [])]).2 [2]
      [true, true, false]).2.1 ≠ (addSeq toySha [([1], [])]).2 ∧
    mmr_tr_has_root (mmr_add toySha (addSeq toySha [([1], [])]).2 [2]
      [true, true, false]).2.1 (toySha [2]) = true := by
  decide
